import Mathlib

/-!
# Verification of the Agent-builder workflow execution engine and retrieval pipeline

Shallow embedding, in Lean 4, of the algorithmic core of the repository:

* `WorkflowExecutionService` (`src/backend/app/services/workflow_execution_service.py`):
  `_build_execution_order` (Kahn's algorithm over insertion-ordered dicts),
  the per-node handlers and `execute_workflow`;
* `DocumentService` (`src/backend/app/services/document_service.py`):
  `_split_text_into_chunks`, `search_documents`, `_generate_embeddings`,
  `reprocess_document_embeddings`;
* `LLMService` (`src/backend/app/services/llm_service.py`):
  `generate_response`, `generate_response_gemini`,
  `generate_response_with_web_search`, `search_web`;
* `EmbeddingService._clean_text` / `generate_query_embedding`
  (`src/backend/app/services/embedding_service.py`).

Python dicts are modelled as insertion-ordered association lists
(`dictInsert` updates an existing key in place and appends a new one, exactly
like CPython dict assignment); Python `KeyError` is modelled with
`Except String`; floats are modelled with `ℚ`; external providers
(Gemini generation / embedding, ChromaDB, SerpAPI) are parameters of the
embedded functions, following the capability boundary of the spec (§6).
-/

namespace AgentBuilder

/-! ## Insertion-ordered dictionaries (CPython `dict` semantics) -/

/-- Lookup of a key in an insertion-ordered association list (`d[k]` /
`d.get(k)`): the first entry with the key wins. -/
def dictGet {α : Type} (d : List (String × α)) (k : String) : Option α :=
  match d with
  | [] => none
  | (k', v) :: rest => if k' = k then some v else dictGet rest k

/-- Assignment `d[k] = v` on a CPython dict: an existing key keeps its
position and gets the new value, a new key is appended at the end. -/
def dictInsert {α : Type} (d : List (String × α)) (k : String) (v : α) :
    List (String × α) :=
  match d with
  | [] => [(k, v)]
  | (k', v') :: rest =>
    if k' = k then (k, v) :: rest else (k', v') :: dictInsert rest k v

/-- `ctx.update(partial)`: assign every pair of `partial`, in order. -/
def dictUpdate {α : Type} (d upd : List (String × α)) : List (String × α) :=
  upd.foldl (fun acc p => dictInsert acc p.1 p.2) d

def dictKeys {α : Type} (d : List (String × α)) : List String := d.map Prod.fst

/-- First-some choice, the shape of `dictGet` over an append. -/
def dOr {α : Type} : Option α → Option α → Option α
  | some v, _ => some v
  | none, b => b

/-! ## The workflow graph -/

/-- One edge of `workflow_data["edges"]`: `{source, target}`. -/
structure EdgeT where
  source : String
  target : String
deriving DecidableEq, Repr

/-- `s → t` is an edge of the graph. -/
def edgeMem (edges : List EdgeT) (s t : String) : Prop :=
  ∃ e ∈ edges, e.source = s ∧ e.target = t

/-- `Reaches edges a b`: there is a non-empty directed path from `a` to `b`. -/
inductive Reaches (edges : List EdgeT) : String → String → Prop
  | single {a b : String} : edgeMem edges a b → Reaches edges a b
  | step {a b c : String} : edgeMem edges a b → Reaches edges b c → Reaches edges a c

/-- A node lies on a cycle iff it reaches itself by a non-empty path. -/
def OnCycle (edges : List EdgeT) (v : String) : Prop := Reaches edges v v

/-- The graph is acyclic: no node reaches itself. -/
def Acyclic (edges : List EdgeT) : Prop := ∀ v, ¬ Reaches edges v v

/-! ## `_build_execution_order` (workflow_execution_service.py, lines 75-101)

```
in_degree = {node['id']: 0 for node in nodes}
graph = {node['id']: [] for node in nodes}
for edge in edges:
    source = edge['source']; target = edge['target']
    graph[source].append(target)          -- KeyError if source is no node id
    in_degree[target] += 1                -- KeyError if target is no node id
queue = [node_id for node_id, degree in in_degree.items() if degree == 0]
execution_order = []
while queue:
    current = queue.pop(0); execution_order.append(current)
    for neighbor in graph[current]:
        in_degree[neighbor] -= 1
        if in_degree[neighbor] == 0: queue.append(neighbor)
```
In-degrees are Python ints, so they are modelled as `Int` (they may in
principle go negative; they never re-hit `0` after a push). -/

/-- `{node_id: v for node in nodes}` for a constant value `v`. -/
def initDict {α : Type} (ids : List String) (v : α) : List (String × α) :=
  ids.foldl (fun d k => dictInsert d k v) []

/-- The `for edge in edges` loop: append to the adjacency list of
`edge.source`, bump the in-degree of `edge.target`; a reference to a missing
node id raises `KeyError`. -/
def processEdges (deg : List (String × Int)) (adj : List (String × List String)) :
    List EdgeT → Except String (List (String × Int) × List (String × List String))
  | [] => .ok (deg, adj)
  | e :: rest =>
    match dictGet adj e.source with
    | none => .error ("KeyError: " ++ e.source)
    | some lst =>
      let adj' := dictInsert adj e.source (lst ++ [e.target])
      match dictGet deg e.target with
      | none => .error ("KeyError: " ++ e.target)
      | some d => processEdges (dictInsert deg e.target (d + 1)) adj' rest

/-- The `for neighbor in graph[current]` loop: decrement each neighbor's
in-degree, collecting (in order) the neighbors whose degree reaches `0`;
those are appended to the queue by the caller. -/
def processNeighbors (deg : List (String × Int)) :
    List String → Except String (List (String × Int) × List String)
  | [] => .ok (deg, [])
  | n :: ns =>
    match dictGet deg n with
    | none => .error ("KeyError: " ++ n)
    | some d =>
      match processNeighbors (dictInsert deg n (d - 1)) ns with
      | .error msg => .error msg
      | .ok (deg', pushed) =>
        .ok (deg', if d - 1 = 0 then n :: pushed else pushed)

/-- Total positive in-degree mass: the termination measure of the `while`
loop (each iteration removes one queue element and any enqueue is paid for
by a `1 → 0` decrement). -/
def degPos (deg : List (String × Int)) : Nat :=
  (deg.map (fun p => p.2.toNat)).sum

theorem degPos_dictInsert {deg : List (String × Int)} {k : String} {d : Int}
    (v : Int) (h : dictGet deg k = some d) :
    degPos (dictInsert deg k v) + d.toNat = degPos deg + v.toNat := by
  induction deg with
  | nil => simp [dictGet] at h
  | cons hd tl ih =>
    by_cases h2 : hd.1 = k
    · subst h2
      simp [dictGet] at h
      simp [dictInsert, degPos, h]
      omega
    · simp [dictGet, h2] at h
      simp [dictInsert, degPos, h2] at ih ⊢
      have := ih h
      omega

theorem processNeighbors_degPos {deg deg' : List (String × Int)}
    {ns pushed : List String}
    (h : processNeighbors deg ns = .ok (deg', pushed)) :
    pushed.length + degPos deg' ≤ degPos deg := by
  induction ns generalizing deg pushed with
  | nil =>
    simp [processNeighbors] at h
    simp [h.1, h.2]
  | cons n ns ih =>
    simp only [processNeighbors] at h
    cases hg : dictGet deg n with
    | none => simp [hg] at h
    | some d =>
      simp only [hg] at h
      cases hp : processNeighbors (dictInsert deg n (d - 1)) ns with
      | error msg => simp [hp] at h
      | ok r =>
        obtain ⟨deg'', pushed'⟩ := r
        simp only [hp, Except.ok.injEq, Prod.mk.injEq] at h
        obtain ⟨hdeg, hpush⟩ := h
        subst hdeg
        have hb := ih hp
        have hdp := degPos_dictInsert (d - 1) hg
        by_cases hz : d - 1 = 0
        · subst hpush
          simp only [if_pos hz, List.length_cons]
          omega
        · subst hpush
          simp only [if_neg hz]
          omega

/-- The `while queue:` loop of `_build_execution_order`. -/
def kahnLoop (adj : List (String × List String)) (queue : List String)
    (deg : List (String × Int)) (acc : List String) :
    Except String (List String) :=
  match queue with
  | [] => .ok acc
  | current :: rest =>
    match dictGet adj current with
    | none => .error ("KeyError: " ++ current)
    | some neighbors =>
      match h : processNeighbors deg neighbors with
      | .error msg => .error msg
      | .ok (deg', pushed) => kahnLoop adj (rest ++ pushed) deg' (acc ++ [current])
termination_by queue.length + degPos deg
decreasing_by
  have := processNeighbors_degPos h
  simp only [List.length_append, List.length_cons]
  omega

/-- `_build_execution_order(nodes, edges)`; `KeyError` is modelled as
`Except.error`. -/
def buildExecutionOrder (ids : List String) (edges : List EdgeT) :
    Except String (List String) :=
  match processEdges (initDict ids 0) (initDict ids []) edges with
  | .error msg => .error msg
  | .ok (deg, adj) =>
    let queue := (deg.filter (fun p => p.2 == 0)).map Prod.fst
    kahnLoop adj queue deg []

/-! ### Representation of the two comprehension dicts

Both dicts of `_build_execution_order` keep the node-id key list fixed and
only update values, so (for duplicate-free id lists) they always have the
shape `mapOf f ids` below. -/

/-- A dict with key list `ids` and value `f k` at key `k`. -/
def mapOf {α : Type} (f : String → α) (ids : List String) : List (String × α) :=
  ids.map (fun k => (k, f k))

/-- In-degree of `k` contributed by a list of edges. -/
def incount (edges : List EdgeT) (k : String) : Int :=
  ((edges.filter (fun e => e.target = k)).length : Int)

/-- Adjacency (successors with multiplicity, in edge order) of `k`. -/
def outs (edges : List EdgeT) (k : String) : List String :=
  (edges.filter (fun e => e.source = k)).map EdgeT.target

/-- Remaining in-degree of `k`: incoming edges whose source has not been
popped yet (the popped nodes are exactly `acc`). -/
def remInc (edges : List EdgeT) (acc : List String) (k : String) : Int :=
  (edges.countP (fun e => decide (e.source ∉ acc) && decide (e.target = k)) : Int)

/-- The loop invariant of `_build_execution_order`'s `while` loop.
`f` is the in-degree table, `acc` the execution order so far. -/
structure KahnInv (ids : List String) (edges : List EdgeT) (queue : List String)
    (f : String → Int) (acc : List String) : Prop where
  acc_nodup : acc.Nodup
  queue_nodup : queue.Nodup
  queue_ids : ∀ x ∈ queue, x ∈ ids
  queue_acc : ∀ x ∈ queue, x ∉ acc
  acc_ids : ∀ x ∈ acc, x ∈ ids
  deg_eq : ∀ k ∈ ids, f k = remInc edges acc k
  queue_zero : ∀ x ∈ queue, f x = 0
  acc_zero : ∀ x ∈ acc, f x = 0
  zero_in : ∀ k ∈ ids, f k = 0 → k ∈ acc ∨ k ∈ queue
  sound : ∀ e ∈ edges, e.target ∈ acc →
    e.source ∈ acc ∧ acc.indexOf e.source < acc.indexOf e.target
  sound_queue : ∀ e ∈ edges, e.target ∈ queue → e.source ∈ acc

/-! ## Python string primitives

`_split_text_into_chunks` (document_service.py, lines 162-188) manipulates
strings through slicing, `rfind` and `strip`; these are modelled below with
CPython semantics (negative indices count from the end, bounds clamp). -/

/-- Python `s.strip()` (whitespace from both ends). -/
def pyStrip (s : String) : String :=
  String.mk (((s.data.dropWhile Char.isWhitespace).reverse.dropWhile
    Char.isWhitespace).reverse)

/-- Python `s.startswith(t)`. -/
def pyStartsWith (s t : String) : Bool :=
  t.data.isPrefixOf s.data

/-- Normalize one slice bound of `s[a:b]` for a string of length `n`. -/
def pyBound (n : Nat) (i : Int) : Nat :=
  if i < 0 then ((n : Int) + i).toNat else min i.toNat n

/-- Python slice `s[a:b]`. -/
def pySlice (s : String) (a b : Int) : String :=
  let lo := pyBound s.length a
  let hi := pyBound s.length b
  String.mk ((s.data.take hi).drop lo)

/-- Python `s.rfind(c)` for a single-character needle: highest index of `c`
in `s`, `-1` if absent. -/
def pyRFindChar (s : String) (c : Char) : Int :=
  match s.data.reverse.findIdx? (fun x => x = c) with
  | some i => (s.length : Int) - 1 - (i : Int)
  | none => -1

def rfind2Aux (c₁ c₂ : Char) : List Char → Int → Int → Int
  | [], _, best => best
  | [_], _, best => best
  | a :: b :: rest, i, best =>
    rfind2Aux c₁ c₂ (b :: rest) (i + 1) (if a = c₁ ∧ b = c₂ then i else best)

/-- Python `s.rfind(t)` for a two-character needle `t = c₁c₂`: highest start
index of an occurrence, `-1` if absent. -/
def pyRFind2 (s : String) (c₁ c₂ : Char) : Int :=
  rfind2Aux c₁ c₂ s.data 0 (-1)

/-! ## `_split_text_into_chunks` (document_service.py)

```
chunks = []; start = 0
while start < len(text):
    end = start + chunk_size
    chunk = text[start:end]
    if end < len(text):
        last_period = chunk.rfind('.')          -- chunk-relative index!
        last_newline = chunk.rfind('\n\n')      -- chunk-relative index!
        split_point = max(last_period, last_newline)
        if split_point > start + chunk_size // 2:
            chunk = text[start:split_point + 1]
            start = split_point + 1 - overlap
        else:
            start = end - overlap
    else:
        start = len(text)
    if chunk.strip(): chunks.append(chunk.strip())
return chunks
```
There is no clamp on the new `start`; the body compares and reuses the
chunk-relative `rfind` result as if it were text-absolute. Both facts are
verified below. The whole loop is modelled with fuel (`none` = the Python
loop does not terminate within `len(text) + 1` iterations). -/

/-- One iteration of the `while` loop: returns the appended chunk (before
`strip`) and the new `start`. -/
def splitStep (text : String) (chunkSize overlap : Int) (start : Int) :
    String × Int :=
  let n : Int := (text.length : Int)
  let endIdx := start + chunkSize
  let chunk := pySlice text start endIdx
  if endIdx < n then
    let lastPeriod := pyRFindChar chunk '.'
    let lastNewline := pyRFind2 chunk '\n' '\n'
    let splitPoint := max lastPeriod lastNewline
    if splitPoint > start + chunkSize.fdiv 2 then
      (pySlice text start (splitPoint + 1), splitPoint + 1 - overlap)
    else
      (chunk, endIdx - overlap)
  else
    (chunk, n)

def splitAux (text : String) (chunkSize overlap : Int) :
    Nat → Int → List String → Option (List String)
  | 0, start, acc =>
    if start < (text.length : Int) then none else some acc
  | fuel + 1, start, acc =>
    if start < (text.length : Int) then
      let step := splitStep text chunkSize overlap start
      splitAux text chunkSize overlap fuel step.2
        (if pyStrip step.1 ≠ "" then acc ++ [pyStrip step.1] else acc)
    else some acc

/-- `_split_text_into_chunks(text, chunk_size, overlap)`.  `text.length + 1`
iterations suffice whenever the start pointer strictly increases
(`splitTextIntoChunks_some` below); `none` reports non-termination of the
Python loop within that bound. -/
def splitTextIntoChunks (text : String) (chunkSize overlap : Int) :
    Option (List String) :=
  splitAux text chunkSize overlap (text.length + 1) 0 []

/-! ## Retrieval pipeline (`document_service.py` / `embedding_service.py`)

External providers (Gemini embedding, ChromaDB) appear as function
parameters; similarities/distances (Python floats) are modelled with `ℚ`.
A trace of provider invocations is threaded through `search_documents` so
that frame properties ("no provider calls") can be stated. -/

/-- Python `s.split()` (split on whitespace runs, no empty parts). -/
def splitWsAux : List Char → List Char → List String
  | [], cur => if cur ≠ [] then [String.mk cur.reverse] else []
  | c :: rest, cur =>
    if c.isWhitespace then
      if cur ≠ [] then String.mk cur.reverse :: splitWsAux rest []
      else splitWsAux rest []
    else splitWsAux rest (c :: cur)

def splitWs (s : String) : List String := splitWsAux s.data []

/-- `EmbeddingService._clean_text`: whitespace-normalize and truncate to
30000 characters. (Non-string input, which Python maps to `""`, cannot
occur here.) -/
def cleanText (text : String) : String :=
  let clean := " ".intercalate (splitWs (pyStrip text))
  if clean.length > 30000 then clean.take 30000 else clean

/-- Metadata stored with a chunk in ChromaDB. Collections can in principle
hold entries without some fields, hence the `Option`s; ingestion always
writes all four fields. -/
structure ChromaMeta where
  document_id : Option Int
  chunk_index : Option Int
  filename : Option String
  chunk_length : Option Int
deriving DecidableEq, Repr

/-- One row of a ChromaDB `collection.query` response (document text,
metadata, distance), already zipped as in the `for` loop of
`search_documents`. -/
structure ChromaRow where
  document : String
  metadata : ChromaMeta
  distance : ℚ
deriving DecidableEq, Repr

/-- One result dict built by `search_documents`. -/
structure SearchResult where
  content : String
  metadata : ChromaMeta
  similarity : ℚ
  document_id : Int
  chunk_index : Int
  filename : String
deriving DecidableEq, Repr

/-- External-provider invocations of the retrieval pipeline. -/
inductive ProviderCall where
  | embedQuery (cleanedText : String)
  | getCollection (name : String)
  | vecQuery (name : String) (nResults : Int)
deriving DecidableEq, Repr

def ProviderCall.isVectorCall : ProviderCall → Bool
  | .embedQuery _ => false
  | .getCollection _ => true
  | .vecQuery _ _ => true

/-- `EmbeddingService.generate_query_embedding`, with its provider-call
trace. `rawEmbed` is the `genai.embed_content` boundary. -/
def generateQueryEmbedding (rawEmbed : String → Except String (List ℚ))
    (query : String) : Except String (List ℚ) × List ProviderCall :=
  let clean := cleanText query
  if clean = "" then
    (.error "Error generating query embedding: Query text is empty or invalid", [])
  else
    match rawEmbed clean with
    | .ok emb => (.ok emb, [.embedQuery clean])
    | .error e => (.error ("Error generating query embedding: " ++ e),
        [.embedQuery clean])

/-- Python `l[:limit]` for an `int` limit (negative limits drop from the
end). -/
def pyTake {α : Type} (limit : Int) (l : List α) : List α :=
  if limit < 0 then l.take ((l.length : Int) + limit).toNat else l.take limit.toNat

/-- Insert one result into a similarity-descending list, after all entries
with greater-or-equal similarity (the stable position). -/
def insertDesc (r : SearchResult) : List SearchResult → List SearchResult
  | [] => [r]
  | x :: xs => if x.similarity < r.similarity then r :: x :: xs
      else x :: insertDesc r xs

/-- `results.sort(key=lambda x: x["similarity"], reverse=True)`: Python's
sort is stable, and a stable descending sort is exactly the left-to-right
stable insertion below. -/
def sortBySimDesc (l : List SearchResult) : List SearchResult :=
  l.foldl (fun acc r => insertDesc r acc) []

/-- Descending order by similarity. -/
def SortedDesc (l : List SearchResult) : Prop :=
  List.Pairwise (fun a b : SearchResult => b.similarity ≤ a.similarity) l

/-- The per-document body of the `for doc_id in document_ids` loop:
`get_collection` then `collection.query`; any exception (including the
10-second query timeout, both modelled as `Except.error`) skips the
document (`continue`). Rows are filtered by `similarity = 1 - distance ≥
threshold`. -/
def searchOneDoc (getColl : String → Except String Unit)
    (collQuery : String → List ℚ → Int → Except String (List ChromaRow))
    (docId : Int) (qemb : List ℚ) (limit : Int) (threshold : ℚ) :
    List SearchResult × List ProviderCall :=
  let name := "document_" ++ toString docId
  match getColl name with
  | .error _ => ([], [.getCollection name])
  | .ok _ =>
    match collQuery name qemb limit with
    | .error _ => ([], [.getCollection name, .vecQuery name limit])
    | .ok rows =>
      ((rows.filter (fun row => threshold ≤ 1 - row.distance)).map (fun row =>
        { content := row.document
          metadata := row.metadata
          similarity := 1 - row.distance
          document_id := docId
          chunk_index := row.metadata.chunk_index.getD 0
          filename := row.metadata.filename.getD "unknown" }),
       [.getCollection name, .vecQuery name limit])

/-- `DocumentService.search_documents`, returning the result list and the
trace of provider invocations. -/
def searchDocumentsTr (clientAvailable : Bool)
    (rawEmbed : String → Except String (List ℚ))
    (getColl : String → Except String Unit)
    (collQuery : String → List ℚ → Int → Except String (List ChromaRow))
    (query : String) (documentIds : List Int) (limit : Int) (threshold : ℚ) :
    List SearchResult × List ProviderCall :=
  if clientAvailable then
    match generateQueryEmbedding rawEmbed query with
    | (.error _, calls) => ([], calls)
    | (.ok qemb, calls) =>
      let collected := documentIds.foldl (fun acc docId =>
        let one := searchOneDoc getColl collQuery docId qemb limit threshold
        (acc.1 ++ one.1, acc.2 ++ one.2)) (([] : List SearchResult), calls)
      (pyTake limit (sortBySimDesc collected.1), collected.2)
  else ([], [])

/-! ## Ingestion (`_generate_embeddings`, `reprocess_document_embeddings`)

The vector store itself is the external ChromaDB service. Modelled from the
spec (§6): per-document named collections with `upsert(id, vector, metadata)`
semantics (ids are unique within a collection, writing an existing id
overwrites it), `get_or_create_collection`, and `delete_collection`. The
embedding provider is the `EmbeddingService.generate_embeddings` adapter
boundary (`embedFn`), one vector per chunk. -/

structure IndexEntry where
  document : String
  embedding : List ℚ
  metadata : ChromaMeta
deriving DecidableEq, Repr

/-- The vector index: collection name → (chunk id → entry). -/
abbrev VectorIndex := List (String × List (String × IndexEntry))

def getOrCreateCollection (idx : VectorIndex) (name : String) : VectorIndex :=
  match dictGet idx name with
  | some _ => idx
  | none => idx ++ [(name, [])]

/-- `delete_collection`. -/
def deleteCollection (idx : VectorIndex) (name : String) : VectorIndex :=
  idx.filter (fun p => p.1 ≠ name)

/-- The metadata dict written for chunk `idx` of a document. -/
def mkChunkMeta (docId : Int) (chunkIdx : Nat) (filename : String)
    (chunk : String) : ChromaMeta :=
  { document_id := some docId, chunk_index := some chunkIdx,
    filename := some filename, chunk_length := some chunk.length }

/-- The batched storage loop of `_generate_embeddings`
(`for i in range(0, len(chunks), batch_size)`, `batch_size = 10`): each batch
zips chunks with embeddings, builds ids `doc_{id}_chunk_{i+j}` and metadata,
and `collection.add`s (upserts) them. -/
def storeBatches (docId : Int) (filename : String) (chunks : List String)
    (embeddings : List (List ℚ)) (i : Nat)
    (coll : List (String × IndexEntry)) : List (String × IndexEntry) :=
  if _h : i < chunks.length then
    let batchChunks := (chunks.drop i).take 10
    let batchEmbeddings := (embeddings.drop i).take 10
    let pairs := (batchChunks.zip batchEmbeddings).enum.map (fun p =>
      ("doc_" ++ toString docId ++ "_chunk_" ++ toString (i + p.1),
        IndexEntry.mk p.2.1 p.2.2 (mkChunkMeta docId (i + p.1) filename p.2.1)))
    storeBatches docId filename chunks embeddings (i + 10)
      (pairs.foldl (fun c q => dictInsert c q.1 q.2) coll)
  else coll
termination_by chunks.length - i
decreasing_by omega

/-- `DocumentService._generate_embeddings(document, text)`: raise on empty
text, skip storage without a client, chunk with the defaults
`chunk_size=1000, overlap=200`, embed, then store all batches into the
(created-if-absent) collection `document_{id}`. Embedding-provider failures
propagate to the caller; vector-store writes are upserts and do not fail in
this model (the Python code swallows storage errors). -/
def generateEmbeddings (embedFn : List String → Except String (List (List ℚ)))
    (clientAvailable : Bool) (docId : Int) (filename : String) (text : String)
    (idx : VectorIndex) : Except String VectorIndex :=
  if pyStrip text = "" then .error "No text content to embed"
  else if clientAvailable then
    match splitTextIntoChunks text 1000 200 with
    | none => .error "chunking did not terminate"
    | some chunks =>
      match embedFn chunks with
      | .error e => .error e
      | .ok embeddings =>
        let name := "document_" ++ toString docId
        let idx₁ := getOrCreateCollection idx name
        let coll := (dictGet idx₁ name).getD []
        .ok (dictInsert idx₁ name
          (storeBatches docId filename chunks embeddings 0 coll))
  else .ok idx

/-- `DocumentService.reprocess_document_embeddings` (vector-index part):
delete the document's collection if it exists (a missing collection is
ignored), then regenerate from the stored extracted text. Returns the new
index on success; persistence-status bookkeeping is out of scope. -/
def reprocessDocumentEmbeddings
    (embedFn : List String → Except String (List (List ℚ)))
    (clientAvailable : Bool) (docId : Int) (filename : String)
    (extractedText : String) (idx : VectorIndex) :
    Except String VectorIndex :=
  if clientAvailable then
    let name := "document_" ++ toString docId
    let idx₁ := match dictGet idx name with
      | some _ => deleteCollection idx name
      | none => idx
    generateEmbeddings embedFn clientAvailable docId filename extractedText idx₁
  else .ok idx

/-! ## LLM service (`llm_service.py`)

The `genai.generate_content` call is the external boundary (`rawGen`,
returning the response text or an exception); `search_web`'s SerpAPI call is
`webSearchRaw` (rows already shaped like the dicts `search_web` builds). -/

structure WebRow where
  title : String
  link : String
  snippet : String
  displayed_link : String
deriving DecidableEq, Repr

/-- `usage` token estimates (floats in Python: `len(text.split()) * 1.3`). -/
structure GenResult where
  response : String
  model : String
  usage : List (String × ℚ)
  finish_reason : String
  web_results : List WebRow
deriving DecidableEq, Repr

structure Caps where
  rawGen : String → String → ℚ → Int → Except String String
  webSearchRaw : String → Int → Except String (List WebRow)
  serpApiKeyPresent : Bool
  rawEmbedQuery : String → Except String (List ℚ)
  getColl : String → Except String Unit
  collQuery : String → List ℚ → Int → Except String (List ChromaRow)
  chromaAvailable : Bool

def availableModels : List String := ["gemini-pro", "gemini-1.5-pro", "gemini-1.5-flash"]

def llmDefaultModel : String := "gemini-1.5-flash"

/-- `LLMService._estimate_tokens`. -/
def estimateTokens (text : String) : ℚ :=
  ((splitWs text).length : ℚ) * (13 / 10)

/-- `LLMService._construct_prompt`. -/
def constructPrompt (prompt context : String) : String :=
  if context ≠ "" then
    "You are a helpful AI assistant. Use the following context to answer.\n\n"
      ++ "Context:\n" ++ context ++ "\n\nQuestion: " ++ prompt ++ "\n"
  else "You are a helpful AI assistant.\n\nQuestion: " ++ prompt

/-- `LLMService.generate_response_gemini`. Provider failures and empty
generations are wrapped into `"Error generating Gemini response: …"` and
re-raised (the blocked-content detail of the empty case is provider
metadata, collapsed to its message). -/
def generateResponseGemini (caps : Caps) (prompt context model : String)
    (temperature : ℚ) (maxTokens : Int) : Except String GenResult :=
  let modelName := if model ∈ availableModels then model else llmDefaultModel
  let fullPrompt := constructPrompt prompt context
  match caps.rawGen fullPrompt modelName temperature (min maxTokens 8192) with
  | .error e => .error ("Error generating Gemini response: " ++ e)
  | .ok text =>
    if text = "" then .error "Error generating Gemini response: No content generated"
    else .ok (GenResult.mk text modelName
      [("prompt_tokens", estimateTokens fullPrompt),
       ("completion_tokens", estimateTokens text),
       ("total_tokens", estimateTokens (fullPrompt ++ text))]
      "stop" [])

/-- `LLMService.generate_response`. -/
def generateResponse (caps : Caps) (prompt context model : String)
    (temperature : ℚ) (maxTokens : Int) (customPrompt : String) :
    Except String GenResult :=
  let prompt' := if customPrompt ≠ ""
    then customPrompt ++ "\n\nUser Question: " ++ prompt else prompt
  if model ∈ availableModels ∨ pyStartsWith model "gemini" then
    generateResponseGemini caps prompt' context model temperature maxTokens
  else
    generateResponseGemini caps prompt' context llmDefaultModel temperature maxTokens

/-- `LLMService.search_web`: no key or a SerpAPI failure yields `[]`;
otherwise the first `num_results` organic results. -/
def searchWeb (caps : Caps) (query : String) (numResults : Int) : List WebRow :=
  if caps.serpApiKeyPresent then
    match caps.webSearchRaw query numResults with
    | .error _ => []
    | .ok rows => pyTake numResults rows
  else []

/-- `LLMService.generate_response_with_web_search`: web search (failures
already absorbed by `search_web`), prompt-context augmentation, generation;
a generation failure falls back to plain generation with the original
context, whose failure propagates. -/
def generateResponseWithWebSearch (caps : Caps) (prompt context model : String)
    (temperature : ℚ) (maxTokens : Int) (customPrompt : String)
    (numWebResults : Int) : Except String GenResult :=
  let webResults := searchWeb caps prompt numWebResults
  let webContext := if webResults ≠ [] then
      "Current web information:\n" ++ String.join (webResults.enum.map (fun p =>
        "\n" ++ toString (p.1 + 1) ++ ". " ++ p.2.title
          ++ "\n   Source: " ++ p.2.displayed_link
          ++ "\n   Content: " ++ p.2.snippet ++ "\n"))
    else ""
  let fullContext := "\n\n".intercalate
    (([if context ≠ "" then "Document context:\n" ++ context else "",
       webContext]).filter (fun s => s ≠ ""))
  match generateResponse caps prompt fullContext model temperature maxTokens
      customPrompt with
  | .ok r => .ok { r with web_results := webResults }
  | .error _ =>
    match generateResponse caps prompt context model temperature maxTokens
        customPrompt with
    | .ok r => .ok { r with web_results := [] }
    | .error e₂ => .error e₂

/-! ## Workflow execution (`workflow_execution_service.py`)

The execution context is a Python dict from string keys to values of the
shapes this executor actually stores (strings, result lists, usage dicts,
web-result lists, numbers). `timestamp` fields (wall clock) and the
top-level `execution_time` (wall clock) are environmental and omitted from
the result record; everything else is modelled. -/

inductive Val where
  | str (s : String)
  | num (q : ℚ)
  | results (rs : List SearchResult)
  | usage (u : List (String × ℚ))
  | webs (ws : List WebRow)
deriving DecidableEq, Repr

/-- Python truthiness of a context value. -/
def Val.truthy : Val → Bool
  | .str s => s ≠ ""
  | .num q => q ≠ 0
  | .results rs => rs ≠ []
  | .usage u => u ≠ []
  | .webs ws => ws ≠ []

abbrev Ctx := List (String × Val)

/-- `context.get(k, default)`. -/
def ctxGetD (ctx : Ctx) (k : String) (d : Val) : Val := (dictGet ctx k).getD d

/-- `context.get(k, default)` where the code consumes the value as a string.
Non-string values are never stored at the keys read this way by this
executor. -/
def ctxGetStr (ctx : Ctx) (k : String) (d : String) : String :=
  match dictGet ctx k with
  | some (.str s) => s
  | _ => d

/-- Node-config values (from the workflow JSON). -/
inductive CVal where
  | s (v : String)
  | i (v : Int)
  | q (v : ℚ)
  | b (v : Bool)
deriving DecidableEq, Repr

def CVal.truthy : CVal → Bool
  | .s v => v ≠ ""
  | .i v => v ≠ 0
  | .q v => v ≠ 0
  | .b v => v

abbrev Config := List (String × CVal)

/-- `config.get(k, default)` consumed as a string. -/
def cfgStr (c : Config) (k : String) (d : String) : String :=
  match dictGet c k with
  | some (.s v) => v
  | _ => d

/-- `config.get(k, default)` consumed as an int. -/
def cfgInt (c : Config) (k : String) (d : Int) : Int :=
  match dictGet c k with
  | some (.i v) => v
  | _ => d

/-- `config.get(k, default)` consumed as a number (Python accepts ints where
floats are expected). -/
def cfgQ (c : Config) (k : String) (d : ℚ) : ℚ :=
  match dictGet c k with
  | some (.q v) => v
  | some (.i v) => (v : ℚ)
  | _ => d

/-- `config.get(k, default)` consumed by truthiness (`if flag and …`). -/
def cfgTruthy (c : Config) (k : String) (d : Bool) : Bool :=
  match dictGet c k with
  | some v => v.truthy
  | none => d

/-- One node of `workflow_data["nodes"]`; `config` is `node["data"]["config"]`
(`{}` when absent). -/
structure NodeT where
  id : String
  type : String
  config : Config
deriving DecidableEq, Repr

/-- `{similarity:.2f}` / `{execution_time:.2f}`: fixed two-decimal rendering
(approximating CPython float formatting; never evaluated by the theorems
below). -/
def fmt2 (q : ℚ) : String :=
  let scaled : Int := ⌊q * 100 + 1 / 2⌋
  let a := scaled.natAbs
  (if scaled < 0 then "-" else "") ++ toString (a / 100) ++ "."
    ++ (if a % 100 < 10 then "0" else "") ++ toString (a % 100)

/-- `DocumentService.search_documents` as invoked by the knowledge-base
handler (result list only). -/
def searchDocuments (caps : Caps) (query : String) (documentIds : List Int)
    (limit : Int) (threshold : ℚ) : List SearchResult :=
  (searchDocumentsTr caps.chromaAvailable caps.rawEmbedQuery caps.getColl
    caps.collQuery query documentIds limit threshold).1

/-- `_execute_user_query`: pass the query value through. -/
def executeUserQuery (ctx : Ctx) : Ctx :=
  [("user_query", ctxGetD ctx "query" (.str "")),
   ("component_output", ctxGetD ctx "query" (.str ""))]

/-- The `"Source: …\nContent: …"` join of `_execute_knowledge_base`;
`none` models the `KeyError` raised when a row's metadata lacks
`'filename'`. -/
def optionMapAll {α β : Type} (f : α → Option β) : List α → Option (List β)
  | [] => some []
  | a :: l =>
    match f a with
    | none => none
    | some b =>
      match optionMapAll f l with
      | none => none
      | some bs => some (b :: bs)

def buildContextText (rs : List SearchResult) : Option String :=
  (optionMapAll (fun (r : SearchResult) => r.metadata.filename.map
    (fun fn => "Source: " ++ fn ++ "\nContent: " ++ r.content)) rs).map
    (fun parts => "\n\n".intercalate parts)

/-- `_execute_knowledge_base`. The linked-document-id list comes from the
persistence layer (a parameter here). `search_documents` itself absorbs all
its provider failures, so the handler's `except` branch fires only when the
context-text join raises (missing `'filename'` metadata). -/
def executeKnowledgeBase (caps : Caps) (config : Config) (ctx : Ctx)
    (documentIds : List Int) : Ctx :=
  if documentIds = [] then
    [("knowledge_base_results", .results []),
     ("context_text", .str ""),
     ("component_output", .str "No documents linked to workflow")]
  else
    let query := ctxGetStr ctx "query" ""
    let searchLimit := cfgInt config "search_limit" 5
    let simThreshold := cfgQ config "similarity_threshold" (7 / 10)
    let searchResults := searchDocuments caps query documentIds searchLimit
      simThreshold
    match buildContextText searchResults with
    | some contextText =>
      [("knowledge_base_results", .results searchResults),
       ("context_text", .str contextText),
       ("component_output", .str contextText)]
    | none =>
      [("knowledge_base_results", .results []),
       ("context_text", .str ""),
       ("component_output", .str "Error searching documents: 'filename'")]

/-- `_execute_llm_engine`. Generation failures are converted into context
entries carrying the error message. -/
def executeLlmEngine (caps : Caps) (config : Config) (ctx : Ctx) : Ctx :=
  let query := ctxGetStr ctx "query" ""
  let knowledgeContext := ctxGetStr ctx "context_text" ""
  let model := cfgStr config "model" "gemini-1.5-flash"
  let temperature := cfgQ config "temperature" (7 / 10)
  let maxTokens := cfgInt config "max_tokens" 1000
  let customPrompt := cfgStr config "custom_prompt" ""
  let enableWebSearch := cfgTruthy config "enable_web_search" false
  let webSearchQueries := cfgInt config "web_search_queries" 3
  let result := if enableWebSearch then
      generateResponseWithWebSearch caps query knowledgeContext model
        temperature maxTokens customPrompt webSearchQueries
    else
      generateResponse caps query knowledgeContext model temperature maxTokens
        customPrompt
  match result with
  | .ok r =>
    [("llm_response", .str r.response),
     ("llm_model", .str r.model),
     ("llm_usage", .usage r.usage),
     ("web_results", .webs r.web_results),
     ("component_output", .str r.response)]
  | .error e =>
    [("llm_response", .str ("Error generating response: " ++ e)),
     ("llm_model", .str model),
     ("llm_usage", .usage []),
     ("web_results", .webs []),
     ("component_output", .str ("Error: " ++ e))]

/-- The string content of a context value consumed by `+=` in
`_execute_output` (always a string there). -/
def Val.asStr : Val → String
  | .str s => s
  | _ => ""

/-- `response = context.get("llm_response") or context.get("component_output", "")`. -/
def llmOrComponentOutput (ctx : Ctx) : Val :=
  match dictGet ctx "llm_response" with
  | some v => if v.truthy then v else ctxGetD ctx "component_output" (.str "")
  | none => ctxGetD ctx "component_output" (.str "")

/-- The `show_sources` block of `_execute_output`: one line per
knowledge-base result. The loop reads `result['metadata']['filename']`
**outside any try**, so a missing filename (or a non-list value) is an
uncaught error. -/
def appendSourcesBlock (ctx : Ctx) (showSources : Bool) (formatted : String) :
    Except String String :=
  if showSources ∧ (ctxGetD ctx "knowledge_base_results" (.results [])).truthy then
    match dictGet ctx "knowledge_base_results" with
    | some (.results rs) =>
      match optionMapAll (fun (r : SearchResult) =>
          r.metadata.filename.map (fun fn =>
            "- " ++ fn ++ " (similarity: " ++ fmt2 r.similarity ++ ")")) rs with
      | some sources =>
        if sources ≠ [] then
          .ok (formatted ++ "\n\n**Sources:**\n" ++ "\n".intercalate sources)
        else .ok formatted
      | none => .error "KeyError: 'filename'"
    | _ => .error "TypeError"
  else .ok formatted

/-- The `show_execution_time` line of `_execute_output`: it fires only when
`context["execution_time"]` is also truthy — a key `execute_workflow` never
writes. -/
def appendExecutionTime (ctx : Ctx) (showExecutionTime : Bool) (f1 : String) :
    Except String String :=
  if showExecutionTime ∧ (ctxGetD ctx "execution_time" (.num 0)).truthy then
    match dictGet ctx "execution_time" with
    | some (.num q) => .ok (f1 ++ "\n\n*Execution time: " ++ fmt2 q ++ "s*")
    | _ => .error "TypeError"
  else .ok f1

/-- `_execute_output`. -/
def executeOutput (config : Config) (ctx : Ctx) : Except String Ctx :=
  match appendSourcesBlock ctx (cfgTruthy config "show_sources" true)
      (llmOrComponentOutput ctx).asStr with
  | .error e => .error e
  | .ok f1 =>
    match appendExecutionTime ctx (cfgTruthy config "show_execution_time" false)
        f1 with
    | .error e => .error e
    | .ok f2 =>
      .ok [("final_response", .str f2),
           ("format", .str (cfgStr config "format" "markdown")),
           ("component_output", .str f2)]

/-- `_execute_component`: dispatch on the node-type tag; unknown tags raise
`ValueError`. -/
def executeComponent (caps : Caps) (componentType : String) (config : Config)
    (ctx : Ctx) (documentIds : List Int) : Except String Ctx :=
  if componentType = "user-query" then .ok (executeUserQuery ctx)
  else if componentType = "knowledge-base" then
    .ok (executeKnowledgeBase caps config ctx documentIds)
  else if componentType = "llm-engine" then .ok (executeLlmEngine caps config ctx)
  else if componentType = "output" then executeOutput config ctx
  else .error ("Unknown component type: " ++ componentType)

/-- One entry of the execution log (`timestamp` omitted: wall clock). -/
structure ExecutionStep where
  component : String
  node_id : String
  result : Ctx
deriving DecidableEq, Repr

/-- The result of `execute_workflow` (`execution_time` omitted: wall
clock). -/
structure RunResult where
  response : Val
  execution_log : List ExecutionStep
  context : Ctx
deriving DecidableEq, Repr

/-- The dispatch loop of `execute_workflow`: look each ordered id up in the
node list, skip missing ones, execute, log, and merge the partial context. -/
def runNodes (caps : Caps) (nodes : List NodeT) (documentIds : List Int) :
    List String → Ctx → List ExecutionStep →
    Except String (Ctx × List ExecutionStep)
  | [], ctx, log => .ok (ctx, log)
  | nodeId :: restIds, ctx, log =>
    match nodes.find? (fun n => n.id = nodeId) with
    | none => runNodes caps nodes documentIds restIds ctx log
    | some node =>
      match executeComponent caps node.type node.config ctx documentIds with
      | .error e => .error e
      | .ok stepResult =>
        runNodes caps nodes documentIds restIds (dictUpdate ctx stepResult)
          (log ++ [{ component := node.type, node_id := nodeId,
                     result := stepResult }])

/-- `WorkflowExecutionService.execute_workflow` for a stored workflow graph.
Workflow lookup and the linked-document-id list are persistence-layer
concerns; the graph and the id list are parameters. -/
def executeWorkflow (caps : Caps) (nodes : List NodeT) (edges : List EdgeT)
    (query : String) (documentIds : List Int) : Except String RunResult :=
  match buildExecutionOrder (nodes.map NodeT.id) edges with
  | .error e => .error e
  | .ok order =>
    match runNodes caps nodes documentIds order [("query", .str query)] [] with
    | .error e => .error e
    | .ok (ctx, log) =>
      .ok { response := ctxGetD ctx "final_response" (.str "No response generated"),
            execution_log := log, context := ctx }

/-- The context shapes `execute_workflow` maintains at the keys the output
handler reads without a `try`: `knowledge_base_results` is a result list
whose rows all carry a filename, `execution_time` is never present, and
`final_response` is always a string. -/
def CtxInv (ctx : Ctx) : Prop :=
  (∀ v, dictGet ctx "knowledge_base_results" = some v →
    ∃ rs, v = Val.results rs ∧ ∀ r ∈ rs, r.metadata.filename.isSome) ∧
  dictGet ctx "execution_time" = none ∧
  (∀ v, dictGet ctx "final_response" = some v → ∃ s, v = Val.str s)

theorem dictGet_dictInsert_self {α : Type} (d : List (String × α)) (k : String)
    (v : α) : dictGet (dictInsert d k v) k = some v := by
  induction d with
  | nil => simp [dictInsert, dictGet]
  | cons hd tl ih =>
    by_cases h : hd.1 = k <;> simp [dictInsert, dictGet, h, ih]

theorem dictGet_dictInsert_ne {α : Type} (d : List (String × α)) {k k' : String}
    (v : α) (h : k ≠ k') : dictGet (dictInsert d k v) k' = dictGet d k' := by
  induction d with
  | nil => simp [dictInsert, dictGet, h]
  | cons hd tl ih =>
    by_cases h2 : hd.1 = k
    · subst h2; simp [dictInsert, dictGet, h, Ne.symm h]
    · by_cases h3 : hd.1 = k' <;>
        simp [dictInsert, dictGet, h2, h3, ih, Ne.symm h]

/-- Assigning a key the value it already holds leaves the dict unchanged. -/
theorem dictInsert_of_dictGet_eq {α : Type} {d : List (String × α)}
    {k : String} {v : α} (h : dictGet d k = some v) : dictInsert d k v = d := by
  induction d with
  | nil => simp [dictGet] at h
  | cons hd tl ih =>
    by_cases h2 : hd.1 = k
    · subst h2
      simp [dictGet] at h
      simp [dictInsert, ← h]
    · simp [dictGet, h2] at h
      simp [dictInsert, h2, ih h]

theorem Reaches.target_has_incoming {edges : List EdgeT} {a b : String}
    (h : Reaches edges a b) : ∃ e ∈ edges, e.target = b := by
  induction h with
  | single h => obtain ⟨e, he, _, ht⟩ := h; exact ⟨e, he, ht⟩
  | step _ _ ih => exact ih

theorem dictGet_mapOf {α : Type} (f : String → α) (ids : List String)
    (k : String) :
    dictGet (mapOf f ids) k = if k ∈ ids then some (f k) else none := by
  induction ids with
  | nil => simp [mapOf, dictGet]
  | cons hd tl ih =>
    by_cases h : hd = k
    · subst h; simp [mapOf, dictGet]
    · simp [mapOf, dictGet, h, Ne.symm h] at ih ⊢
      exact ih

theorem dictInsert_mapOf {α : Type} (f : String → α) {ids : List String}
    (hnd : ids.Nodup) {k₀ : String} (hk : k₀ ∈ ids) (v : α) :
    dictInsert (mapOf f ids) k₀ v =
      mapOf (fun k => if k = k₀ then v else f k) ids := by
  induction ids with
  | nil => simp at hk
  | cons hd tl ih =>
    simp only [List.nodup_cons] at hnd
    rcases List.mem_cons.mp hk with h | h
    · subst h
      simp only [mapOf, List.map_cons, dictInsert, if_pos rfl]
      have htl : List.map (fun k => (k, f k)) tl =
          List.map (fun k => (k, if k = k₀ then v else f k)) tl := by
        apply List.map_congr_left
        intro k hkt
        have hne : k ≠ k₀ := fun he => hnd.1 (he ▸ hkt)
        simp [hne]
      simp [htl]
    · have hne : hd ≠ k₀ := fun he => hnd.1 (he ▸ h)
      have heq := ih hnd.2 h
      simp only [mapOf, List.map_cons] at heq ⊢
      simp [dictInsert, hne, Ne.symm hne, heq]

theorem mapOf_congr {α : Type} {f f' : String → α} {ids : List String}
    (h : ∀ k ∈ ids, f k = f' k) : mapOf f ids = mapOf f' ids := by
  simp only [mapOf]
  exact List.map_congr_left (fun k hk => by rw [h k hk])

theorem dictInsert_of_dictGet_none {α : Type} {d : List (String × α)}
    {k : String} (v : α) (h : dictGet d k = none) :
    dictInsert d k v = d ++ [(k, v)] := by
  induction d with
  | nil => simp [dictInsert]
  | cons hd tl ih =>
    by_cases h2 : hd.1 = k
    · simp [dictGet, h2] at h
    · simp [dictGet, h2] at h
      simp [dictInsert, h2, ih h]

theorem initDict_eq_mapOf {α : Type} {ids : List String} (hnd : ids.Nodup)
    (v : α) : initDict ids v = mapOf (fun _ => v) ids := by
  suffices h : ∀ (l : List String), l.Nodup →
      ∀ (d : List (String × α)), (∀ k ∈ l, dictGet d k = none) →
      l.foldl (fun d k => dictInsert d k v) d = d ++ mapOf (fun _ => v) l by
    simpa [initDict, mapOf] using h ids hnd [] (by intro k _; simp [dictGet])
  intro l
  induction l with
  | nil => intro _ d _; simp [mapOf]
  | cons hd tl ih =>
    intro hnd' d hfree
    simp only [List.nodup_cons] at hnd'
    have h1 : dictGet d hd = none := hfree hd (by simp)
    have h2 : ∀ k ∈ tl, dictGet (dictInsert d hd v) k = none := by
      intro k hk
      have he : hd ≠ k := fun he => hnd'.1 (he ▸ hk)
      rw [dictGet_dictInsert_ne _ _ he]; exact hfree k (by simp [hk])
    calc (hd :: tl).foldl (fun d k => dictInsert d k v) d
        = tl.foldl (fun d k => dictInsert d k v) (dictInsert d hd v) := by
          simp
      _ = dictInsert d hd v ++ mapOf (fun _ => v) tl := ih hnd'.2 _ h2
      _ = d ++ mapOf (fun _ => v) (hd :: tl) := by
          rw [dictInsert_of_dictGet_none v h1]
          simp [mapOf]

theorem processEdges_ok {ids : List String} (hnd : ids.Nodup)
    {edges : List EdgeT} (hval : ∀ e ∈ edges, e.source ∈ ids ∧ e.target ∈ ids) :
    ∀ (f : String → Int) (g : String → List String),
    processEdges (mapOf f ids) (mapOf g ids) edges =
      .ok (mapOf (fun k => f k + incount edges k) ids,
           mapOf (fun k => g k ++ outs edges k) ids) := by
  induction edges with
  | nil =>
    intro f g
    simp [processEdges, incount, outs, mapOf]
  | cons e rest ih =>
    intro f g
    obtain ⟨hs, ht⟩ := hval e (by simp)
    have hval' : ∀ e' ∈ rest, e'.source ∈ ids ∧ e'.target ∈ ids :=
      fun e' he' => hval e' (by simp [he'])
    simp only [processEdges, dictGet_mapOf, if_pos hs, if_pos ht]
    rw [dictInsert_mapOf _ hnd hs, dictInsert_mapOf _ hnd ht,
      ih hval' _ _]
    have h1 : mapOf (fun k => (if k = e.target then f e.target + 1 else f k)
          + incount rest k) ids = mapOf (fun k => f k + incount (e :: rest) k) ids := by
      apply mapOf_congr
      intro k _
      by_cases hk : k = e.target
      · subst hk
        simp [incount, List.filter_cons]
        omega
      · have : ¬ (e.target = k) := fun h => hk h.symm
        simp [incount, List.filter_cons, this, hk]
    have h2 : mapOf (fun k => (if k = e.source then g e.source ++ [e.target] else g k)
          ++ outs rest k) ids = mapOf (fun k => g k ++ outs (e :: rest) k) ids := by
      apply mapOf_congr
      intro k _
      by_cases hk : k = e.source
      · subst hk
        simp [outs, List.filter_cons]
      · have : ¬ (e.source = k) := fun h => hk h.symm
        simp [outs, List.filter_cons, this, hk]
    rw [h1, h2]

/-- Exact behaviour of one pass of the neighbor loop on a dict of shape
`mapOf f ids`: every neighbor's degree is decremented once per occurrence,
and a node is enqueued exactly when its degree reaches `0` during the pass
(equivalently: its start degree is non-zero and equals its multiplicity). -/
theorem processNeighbors_spec {ids : List String} (hnd : ids.Nodup) :
    ∀ (ns : List String) (f : String → Int),
    (∀ n ∈ ns, n ∈ ids) → (∀ k ∈ ns, ((ns.count k : Int)) ≤ f k) →
    ∃ pushed, processNeighbors (mapOf f ids) ns =
        .ok (mapOf (fun k => f k - ns.count k) ids, pushed) ∧
      pushed.Nodup ∧
      (∀ m, m ∈ pushed ↔ m ∈ ns ∧ f m = (ns.count m : Int) ∧ f m ≠ 0) := by
  intro ns
  induction ns with
  | nil =>
    intro f _ _
    refine ⟨[], ?_, by simp, by simp⟩
    simp [processNeighbors, mapOf]
  | cons n rest ih =>
    intro f hmem hcnt
    have hn : n ∈ ids := hmem n (by simp)
    have hcnt_n : ((rest.count n : Int)) + 1 ≤ f n := by
      have := hcnt n (by simp)
      simp [List.count_cons] at this
      push_cast at this
      omega
    have hmem' : ∀ k ∈ rest, k ∈ ids := fun k hk => hmem k (by simp [hk])
    have hcnt' : ∀ k ∈ rest,
        ((rest.count k : Int)) ≤ (fun k => if k = n then f n - 1 else f k) k := by
      intro k hk
      by_cases hkn : k = n
      · subst hkn; simp; omega
      · have := hcnt k (by simp [hk])
        have hne : ¬ (k == n) = true := by simp [hkn]
        simp [List.count_cons, hne, hkn] at this ⊢
        exact this
    obtain ⟨pushed', hrun, hnodup', hchar⟩ :=
      ih (fun k => if k = n then f n - 1 else f k) hmem' hcnt'
    refine ⟨if f n - 1 = 0 then n :: pushed' else pushed', ?_, ?_, ?_⟩
    · simp only [processNeighbors, dictGet_mapOf, if_pos hn]
      rw [dictInsert_mapOf _ hnd hn, hrun]
      have hdeg : mapOf (fun k => (if k = n then f n - 1 else f k) - rest.count k) ids
          = mapOf (fun k => f k - ((n :: rest).count k : Int)) ids := by
        apply mapOf_congr
        intro k _
        by_cases hkn : k = n
        · subst hkn
          simp [List.count_cons]
          push_cast
          omega
        · have hne : ¬ (k == n) = true := by simp [hkn]
          simp [List.count_cons, hne, hkn]
      rw [hdeg]
    · by_cases hz : f n - 1 = 0
      · simp only [if_pos hz, List.nodup_cons]
        refine ⟨?_, hnodup'⟩
        intro hmem''
        have h := (hchar n).mp hmem''
        simp at h
        omega
      · simp [if_neg hz, hnodup']
    · intro m
      by_cases hmn : m = n
      · subst hmn
        by_cases hz : f m - 1 = 0
        · simp only [if_pos hz]
          have hcz : rest.count m = 0 := by omega
          simp [List.count_cons, hcz]
          omega
        · simp only [if_neg hz]
          rw [hchar m]
          simp only [eq_self_iff_true, if_true]
          constructor
          · rintro ⟨hmr, he, hne⟩
            refine ⟨by simp, ?_, by omega⟩
            simp [List.count_cons]
            push_cast
            omega
          · rintro ⟨_, he, hne⟩
            simp [List.count_cons] at he
            push_cast at he
            have hpos : 0 < rest.count m := by omega
            refine ⟨List.count_pos_iff.mp hpos, by omega, by omega⟩
      · have hcm : (n :: rest).count m = rest.count m := by
          have hne : ¬ (m == n) = true := by
            simp only [beq_iff_eq]; exact hmn
          have hne2 : ¬ (n == m) = true := by
            simp only [beq_iff_eq]; exact fun h => hmn h.symm
          simp [List.count_cons, hne, hne2]
        by_cases hz : f n - 1 = 0
        · simp only [if_pos hz, List.mem_cons]
          rw [hchar m]
          simp [hmn, hcm]
        · simp only [if_neg hz]
          rw [hchar m]
          simp [hmn, hcm]

theorem count_outs (edges : List EdgeT) (c k : String) :
    (outs edges c).count k
      = edges.countP (fun e => decide (e.source = c) && decide (e.target = k)) := by
  simp only [outs, List.count_eq_countP, List.countP_map]
  rw [List.countP_filter]
  apply List.countP_congr
  intro e _
  simp only [Function.comp, Bool.and_eq_true, beq_iff_eq, decide_eq_true_eq]
  exact and_comm

theorem remInc_nil (edges : List EdgeT) (k : String) :
    remInc edges [] k = incount edges k := by
  have h : (edges.filter (fun e => decide (e.target = k))).length
      = edges.countP (fun e => decide (e.target = k)) :=
    (List.countP_eq_length_filter _ _).symm
  simp only [remInc, incount, h]
  exact_mod_cast List.countP_congr (fun e _ => by simp)

theorem remInc_append_nat (edges : List EdgeT) {acc : List String} {c : String}
    (hc : c ∉ acc) (k : String) :
    edges.countP (fun e => decide (e.source ∉ acc ++ [c]) && decide (e.target = k))
      + edges.countP (fun e => decide (e.source = c) && decide (e.target = k))
      = edges.countP (fun e => decide (e.source ∉ acc) && decide (e.target = k)) := by
  induction edges with
  | nil => rfl
  | cons e rest ih =>
    simp only [List.countP_cons]
    have hone : (if (decide (e.source ∉ acc ++ [c]) && decide (e.target = k))
          then 1 else 0)
        + (if (decide (e.source = c) && decide (e.target = k)) then 1 else 0)
        = (if (decide (e.source ∉ acc) && decide (e.target = k))
          then (1 : Nat) else 0) := by
      by_cases h1 : e.target = k
      · by_cases h2 : e.source ∈ acc
        · have h3 : e.source ≠ c := fun h => hc (h ▸ h2)
          simp [h1, h2, h3]
        · by_cases h3 : e.source = c <;> simp [h1, h2, h3, hc]
      · simp [h1]
    omega

theorem remInc_append {edges : List EdgeT} {acc : List String} {c : String}
    (hc : c ∉ acc) (k : String) :
    remInc edges (acc ++ [c]) k + ((outs edges c).count k : Int)
      = remInc edges acc k := by
  simp only [remInc, count_outs]
  exact_mod_cast congrArg (Nat.cast : Nat → Int) (remInc_append_nat edges hc k)

/-- If no incoming edge of `k` remains, every incoming edge of `k` has its
source in `acc`. -/
theorem remInc_eq_zero_sources {edges : List EdgeT} {acc : List String}
    {k : String} (h : remInc edges acc k = 0) :
    ∀ e ∈ edges, e.target = k → e.source ∈ acc := by
  intro e he ht
  simp only [remInc] at h
  have h0 : edges.countP
      (fun e => decide (e.source ∉ acc) && decide (e.target = k)) = 0 := by
    omega
  have := List.countP_eq_zero.mp h0 e he
  simp only [Bool.and_eq_true, decide_eq_true_eq] at this
  by_contra hsrc
  exact this ⟨hsrc, ht⟩

theorem remInc_nonneg (edges : List EdgeT) (acc : List String) (k : String) :
    0 ≤ remInc edges acc k := by
  simp [remInc]

/-- Running the `while` loop from any state satisfying `KahnInv` succeeds and
ends in a state satisfying `KahnInv` with an empty queue. -/
theorem kahnLoop_ok {ids : List String} {edges : List EdgeT}
    (hnd : ids.Nodup)
    (hval : ∀ e ∈ edges, e.source ∈ ids ∧ e.target ∈ ids) :
    ∀ (N : Nat) (queue : List String) (f : String → Int) (acc : List String),
    queue.length + degPos (mapOf f ids) ≤ N →
    KahnInv ids edges queue f acc →
    ∃ res f', kahnLoop (mapOf (fun k => outs edges k) ids) queue (mapOf f ids) acc
        = .ok res ∧ KahnInv ids edges [] f' res := by
  intro N
  induction N with
  | zero =>
    intro queue f acc hm hinv
    match queue with
    | [] =>
      refine ⟨acc, f, by rw [kahnLoop], ?_⟩
      exact { hinv with
        queue_nodup := by simp
        queue_ids := by simp
        queue_acc := by simp
        queue_zero := by simp
        zero_in := fun k hk h0 => by
          rcases hinv.zero_in k hk h0 with h | h
          · exact Or.inl h
          · simp at h
        sound_queue := fun e he ht => by simp at ht }
    | q :: qrest =>
      exfalso
      simp only [List.length_cons] at hm
      omega
  | succ N ih =>
    intro queue f acc hm hinv
    match queue with
    | [] =>
      refine ⟨acc, f, by rw [kahnLoop], ?_⟩
      exact { hinv with
        queue_nodup := by simp
        queue_ids := by simp
        queue_acc := by simp
        queue_zero := by simp
        zero_in := fun k hk h0 => by
          rcases hinv.zero_in k hk h0 with h | h
          · exact Or.inl h
          · simp at h
        sound_queue := fun e he ht => by simp at ht }
    | current :: rest =>
      have hcid : current ∈ ids := hinv.queue_ids current (by simp)
      have hcacc : current ∉ acc := hinv.queue_acc current (by simp)
      have hczero : f current = 0 := hinv.queue_zero current (by simp)
      have hcrest : current ∉ rest := (List.nodup_cons.mp hinv.queue_nodup).1
      have hrestnd : rest.Nodup := (List.nodup_cons.mp hinv.queue_nodup).2
      have hns_ids : ∀ n ∈ outs edges current, n ∈ ids := by
        intro n hn
        simp only [outs, List.mem_map, List.mem_filter] at hn
        obtain ⟨e, ⟨he, _⟩, ht⟩ := hn
        exact ht ▸ (hval e he).2
      have hmult_le : ∀ k ∈ ids, (((outs edges current).count k : Int)) ≤ f k := by
        intro k hk
        rw [hinv.deg_eq k hk]
        have hmono : edges.countP
              (fun e => decide (e.source = current) && decide (e.target = k))
            ≤ edges.countP
              (fun e => decide (e.source ∉ acc) && decide (e.target = k)) := by
          apply List.countP_mono_left
          intro e _ hpe
          simp only [Bool.and_eq_true, decide_eq_true_eq] at hpe ⊢
          exact ⟨hpe.1 ▸ hcacc, hpe.2⟩
        rw [count_outs]
        simp only [remInc]
        exact_mod_cast hmono
      obtain ⟨pushed, hrun, hpushed_nd, hchar⟩ :=
        processNeighbors_spec hnd (outs edges current) f hns_ids
          (fun k hk => hmult_le k (hns_ids k hk))
      have hpushed_props : ∀ m ∈ pushed,
          m ∈ outs edges current ∧ f m = ((outs edges current).count m : Int)
            ∧ f m ≠ 0 :=
        fun m hmp => (hchar m).mp hmp
      have hpushed_ids : ∀ m ∈ pushed, m ∈ ids :=
        fun m hmp => hns_ids m (hpushed_props m hmp).1
      have hmult0 : ∀ x ∈ ids, f x = 0 → ((outs edges current).count x : Int) = 0 := by
        intro x hx h0
        have h1 := hmult_le x hx
        have h2 : (0 : Int) ≤ ((outs edges current).count x : Int) := by positivity
        omega
      -- the new invariant after popping `current`
      have hinv' : KahnInv ids edges (rest ++ pushed)
          (fun k => f k - (outs edges current).count k) (acc ++ [current]) := by
        refine {
          acc_nodup := ?_, queue_nodup := ?_, queue_ids := ?_, queue_acc := ?_,
          acc_ids := ?_, deg_eq := ?_, queue_zero := ?_, acc_zero := ?_,
          zero_in := ?_, sound := ?_, sound_queue := ?_ }
        · simp only [List.nodup_append, List.nodup_cons, List.not_mem_nil,
            not_false_iff, List.nodup_nil, and_true, true_and]
          refine ⟨hinv.acc_nodup, ?_⟩
          intro a ha
          simp only [List.mem_singleton]
          exact fun hac => hcacc (hac ▸ ha)
        · rw [List.nodup_append]
          refine ⟨hrestnd, hpushed_nd, ?_⟩
          intro a ha hb
          exact (hpushed_props a hb).2.2 (hinv.queue_zero a (by simp [ha]))
        · intro x hx
          rcases List.mem_append.mp hx with h | h
          · exact hinv.queue_ids x (by simp [h])
          · exact hpushed_ids x h
        · intro x hx hxin
          rcases List.mem_append.mp hxin with hin | hin
          · rcases List.mem_append.mp hx with h | h
            · exact hinv.queue_acc x (by simp [h]) hin
            · exact (hpushed_props x h).2.2 (hinv.acc_zero x hin)
          · simp only [List.mem_singleton] at hin
            subst hin
            rcases List.mem_append.mp hx with h | h
            · exact hcrest h
            · exact (hpushed_props x h).2.2 hczero
        · intro x hx
          rcases List.mem_append.mp hx with h | h
          · exact hinv.acc_ids x h
          · simp only [List.mem_singleton] at h
            exact h ▸ hcid
        · intro k hk
          have hra := @remInc_append edges _ _ hcacc k
          have hde := hinv.deg_eq k hk
          omega
        · intro x hx
          rcases List.mem_append.mp hx with h | h
          · have h0 : f x = 0 := hinv.queue_zero x (by simp [h])
            have hc0 := hmult0 x (hinv.queue_ids x (by simp [h])) h0
            omega
          · have := (hpushed_props x h).2.1
            omega
        · intro x hx
          rcases List.mem_append.mp hx with h | h
          · have h0 : f x = 0 := hinv.acc_zero x h
            have hc0 := hmult0 x (hinv.acc_ids x h) h0
            omega
          · simp only [List.mem_singleton] at h
            subst h
            have hc0 := hmult0 x hcid hczero
            omega
        · intro k hk h0
          by_cases hf0 : f k = 0
          · rcases hinv.zero_in k hk hf0 with h | h
            · exact Or.inl (List.mem_append.mpr (Or.inl h))
            · rcases List.mem_cons.mp h with h | h
              · exact Or.inl (List.mem_append.mpr (Or.inr (by simp [h])))
              · exact Or.inr (List.mem_append.mpr (Or.inl h))
          · have hcnt : f k = ((outs edges current).count k : Int) := by omega
            have hpos : 0 < (outs edges current).count k := by
              rcases Nat.eq_zero_or_pos ((outs edges current).count k) with h | h
              · rw [h] at hcnt
                exact absurd (by exact_mod_cast hcnt) hf0
              · exact h
            have hmemns : k ∈ outs edges current := List.count_pos_iff.mp hpos
            exact Or.inr (List.mem_append.mpr
              (Or.inr ((hchar k).mpr ⟨hmemns, hcnt, hf0⟩)))
        · intro e he ht
          rcases List.mem_append.mp ht with hta | htc
          · obtain ⟨hsrc, hidx⟩ := hinv.sound e he hta
            refine ⟨List.mem_append.mpr (Or.inl hsrc), ?_⟩
            rw [List.indexOf_append_of_mem hsrc, List.indexOf_append_of_mem hta]
            exact hidx
          · simp only [List.mem_singleton] at htc
            have hrz : remInc edges acc current = 0 := by
              rw [← hinv.deg_eq current hcid]
              exact hczero
            have hsrc : e.source ∈ acc := remInc_eq_zero_sources hrz e he htc
            refine ⟨List.mem_append.mpr (Or.inl hsrc), ?_⟩
            rw [List.indexOf_append_of_mem hsrc, htc,
              List.indexOf_append_of_not_mem hcacc]
            simp only [List.indexOf_cons_self, Nat.add_zero]
            exact List.indexOf_lt_length.mpr hsrc
        · intro e he ht
          rcases List.mem_append.mp ht with h | h
          · exact List.mem_append.mpr
              (Or.inl (hinv.sound_queue e he (by simp [h])))
          · have htid : e.target ∈ ids := (hval e he).2
            have h0 : f e.target - ((outs edges current).count e.target : Int) = 0 := by
              have := (hpushed_props e.target h).2.1
              omega
            have hrz : remInc edges (acc ++ [current]) e.target = 0 := by
              have hra := @remInc_append edges _ _ hcacc e.target
              have hde := hinv.deg_eq e.target htid
              omega
            exact remInc_eq_zero_sources hrz e he rfl
      -- measure bound for the recursive call
      have hdp := processNeighbors_degPos hrun
      have hm' : (rest ++ pushed).length
          + degPos (mapOf (fun k => f k - (outs edges current).count k) ids) ≤ N := by
        simp only [List.length_append]
        simp only [List.length_cons] at hm
        omega
      obtain ⟨res, f', hres, hfinal⟩ := ih (rest ++ pushed) _ (acc ++ [current]) hm' hinv'
      refine ⟨res, f', ?_, hfinal⟩
      rw [kahnLoop]
      simp only [dictGet_mapOf, if_pos hcid]
      split
      next msg heq =>
        rw [hrun] at heq
        exact absurd heq (by simp)
      next deg' pushed' heq =>
        rw [hrun] at heq
        simp only [Except.ok.injEq, Prod.mk.injEq] at heq
        obtain ⟨h1, h2⟩ := heq
        subst h1
        subst h2
        exact hres

/-- In a finite nonempty set of nodes each of which has a predecessor inside
the set, some node lies on a cycle (pigeonhole along the predecessor chain). -/
theorem cycle_of_all_have_pred {edges : List EdgeT} {S : List String}
    (hne : S ≠ []) (hpred : ∀ k ∈ S, ∃ s ∈ S, edgeMem edges s k) :
    ∃ v, Reaches edges v v := by
  classical
  have hTne : ∃ x : String, x ∈ S := by
    match S, hne with
    | s :: _, _ => exact ⟨s, by simp⟩
  obtain ⟨x₀v, hx₀⟩ := hTne
  let g : {x // x ∈ S} → {x // x ∈ S} := fun x =>
    ⟨(hpred x.val x.property).choose, (hpred x.val x.property).choose_spec.1⟩
  have hg : ∀ x : {x // x ∈ S}, edgeMem edges (g x).val x.val :=
    fun x => (hpred x.val x.property).choose_spec.2
  let seq : Nat → {x // x ∈ S} := fun n => g^[n] ⟨x₀v, hx₀⟩
  have hseq_succ : ∀ n, seq (n + 1) = g (seq n) := by
    intro n
    simp only [seq, Function.iterate_succ_apply']
  have hchain : ∀ n m, n < m → Reaches edges (seq m).val (seq n).val := by
    intro n m
    induction m with
    | zero => intro h; exact absurd h (Nat.not_lt_zero n)
    | succ m ihm =>
      intro hlt
      rcases Nat.lt_succ_iff_lt_or_eq.mp hlt with h | h
      · exact Reaches.step (by rw [hseq_succ]; exact hg (seq m)) (ihm h)
      · subst h
        rw [hseq_succ]
        exact Reaches.single (hg (seq n))
  have hcard : S.toFinset.card < (Finset.range (S.length + 1)).card := by
    rw [Finset.card_range]
    exact Nat.lt_succ_of_le (List.toFinset_card_le S)
  have hmaps : ∀ n ∈ Finset.range (S.length + 1), (seq n).val ∈ S.toFinset := by
    intro n _
    rw [List.mem_toFinset]
    exact (seq n).property
  obtain ⟨i, _, j, _, hij, heq⟩ :=
    Finset.exists_ne_map_eq_of_card_lt_of_maps_to hcard hmaps
  rcases Nat.lt_or_ge i j with hlt | hge
  · exact ⟨(seq i).val, heq ▸ hchain i j hlt⟩
  · have hlt : j < i := lt_of_le_of_ne hge (fun h => hij h.symm)
    exact ⟨(seq j).val, heq ▸ hchain j i hlt⟩

/-- Seed queue shape: filtering the degree dict for value `0` and projecting
to keys is filtering the id list. -/
theorem filter_mapOf_zero (F : String → Int) (ids : List String) :
    ((mapOf F ids).filter (fun p => p.2 == 0)).map Prod.fst
      = ids.filter (fun k => F k == 0) := by
  induction ids with
  | nil => simp [mapOf]
  | cons hd tl ih =>
    by_cases h : F hd == 0 <;> simp [mapOf, List.filter_cons, h] <;>
      simpa [mapOf] using ih

theorem incount_pos_of_mem {edges : List EdgeT} {e : EdgeT} (he : e ∈ edges) :
    1 ≤ incount edges e.target := by
  simp only [incount]
  have : e ∈ edges.filter (fun e' => decide (e'.target = e.target)) :=
    List.mem_filter.mpr ⟨he, by simp⟩
  have := List.length_pos.mpr (List.ne_nil_of_mem this)
  omega

/-- The state just after seeding the queue satisfies the loop invariant. -/
theorem kahnInv_init {ids : List String} {edges : List EdgeT}
    (hnd : ids.Nodup)
    (hval : ∀ e ∈ edges, e.source ∈ ids ∧ e.target ∈ ids) :
    KahnInv ids edges (ids.filter (fun k => incount edges k == 0))
      (fun k => incount edges k) [] := by
  refine {
    acc_nodup := List.nodup_nil, queue_nodup := hnd.filter _,
    queue_ids := ?_, queue_acc := by simp, acc_ids := by simp,
    deg_eq := ?_, queue_zero := ?_, acc_zero := by simp,
    zero_in := ?_, sound := by simp, sound_queue := ?_ }
  · intro x hx
    exact (List.mem_filter.mp hx).1
  · intro k _
    exact (remInc_nil edges k).symm
  · intro x hx
    have := (List.mem_filter.mp hx).2
    simpa using this
  · intro k hk h0
    refine Or.inr (List.mem_filter.mpr ⟨hk, ?_⟩)
    simpa using h0
  · intro e he ht
    exfalso
    have h0 : incount edges e.target = 0 := by
      have := (List.mem_filter.mp ht).2
      simpa using this
    have := incount_pos_of_mem he
    omega

/-- Full correctness of `_build_execution_order` on well-formed acyclic
graphs: it returns an order that is a permutation of the node ids and puts
every edge source strictly before its target. -/
theorem buildExecutionOrder_correct {ids : List String} {edges : List EdgeT}
    (hnd : ids.Nodup)
    (hval : ∀ e ∈ edges, e.source ∈ ids ∧ e.target ∈ ids)
    (hacyc : Acyclic edges) :
    ∃ order, buildExecutionOrder ids edges = .ok order ∧
      order.Perm ids ∧
      ∀ e ∈ edges, order.indexOf e.source < order.indexOf e.target := by
  have hpe := processEdges_ok hnd hval (fun _ => (0 : Int)) (fun _ => [])
  have hdeg : mapOf (fun k => (0 : Int) + incount edges k) ids
      = mapOf (fun k => incount edges k) ids :=
    mapOf_congr (fun k _ => by ring)
  have hadj : mapOf (fun k => ([] : List String) ++ outs edges k) ids
      = mapOf (fun k => outs edges k) ids :=
    mapOf_congr (fun k _ => by simp)
  rw [hdeg, hadj] at hpe
  obtain ⟨res, f', hres, hfin⟩ :=
    kahnLoop_ok hnd hval
      ((ids.filter (fun k => incount edges k == 0)).length
        + degPos (mapOf (fun k => incount edges k) ids))
      (ids.filter (fun k => incount edges k == 0))
      (fun k => incount edges k) [] (le_refl _) (kahnInv_init hnd hval)
  have hrun : buildExecutionOrder ids edges = .ok res := by
    rw [buildExecutionOrder, initDict_eq_mapOf hnd (0 : Int),
      initDict_eq_mapOf hnd ([] : List String), hpe]
    simpa [filter_mapOf_zero] using hres
  -- completeness: every id is in the output order
  have hcomplete : ∀ k ∈ ids, k ∈ res := by
    by_contra hmiss
    push_neg at hmiss
    obtain ⟨k₀, hk₀, hk₀n⟩ := hmiss
    have hSne : ids.filter (fun k => decide (k ∉ res)) ≠ [] := by
      intro hS
      have : k₀ ∈ ids.filter (fun k => decide (k ∉ res)) :=
        List.mem_filter.mpr ⟨hk₀, by simpa using hk₀n⟩
      rw [hS] at this
      simp at this
    have hSpred : ∀ x ∈ ids.filter (fun k => decide (k ∉ res)),
        ∃ s ∈ ids.filter (fun k => decide (k ∉ res)), edgeMem edges s x := by
      intro x hx
      have hxids : x ∈ ids := (List.mem_filter.mp hx).1
      have hxnres : x ∉ res := by
        have := (List.mem_filter.mp hx).2
        simpa using this
      have hfx : f' x ≠ 0 := by
        intro h0
        rcases hfin.zero_in x hxids h0 with h | h
        · exact hxnres h
        · simp at h
      have hfx_eq : f' x = remInc edges res x := hfin.deg_eq x hxids
      have hpos : 0 < edges.countP
          (fun e => decide (e.source ∉ res) && decide (e.target = x)) := by
        rcases Nat.eq_zero_or_pos (edges.countP
            (fun e => decide (e.source ∉ res) && decide (e.target = x))) with h | h
        · exfalso
          apply hfx
          rw [hfx_eq]
          simp only [remInc, h, Nat.cast_zero]
        · exact h
      obtain ⟨e, he, hpe'⟩ := List.countP_pos_iff.mp hpos
      simp only [Bool.and_eq_true, decide_eq_true_eq] at hpe'
      refine ⟨e.source, List.mem_filter.mpr ⟨(hval e he).1, by simpa using hpe'.1⟩,
        e, he, rfl, hpe'.2⟩
    obtain ⟨v, hv⟩ := cycle_of_all_have_pred hSne hSpred
    exact hacyc v hv
  have hperm : res.Perm ids := by
    rw [List.perm_ext_iff_of_nodup hfin.acc_nodup hnd]
    intro a
    exact ⟨fun h => hfin.acc_ids a h, fun h => hcomplete a h⟩
  refine ⟨res, hrun, hperm, ?_⟩
  intro e he
  have := hfin.sound e he (hcomplete e.target (hval e he).2)
  exact this.2

/-! ## Chunker theorems (claims C5, C6) -/

/-- Each loop iteration strictly advances `start`, provided
`overlap ≤ chunk_size // 2` (and `chunk_size ≥ 1`). -/
theorem splitStep_advances (text : String) {chunkSize overlap : Int}
    (hcs : 1 ≤ chunkSize) (hov : overlap ≤ chunkSize.fdiv 2) :
    ∀ start : Int, start < (text.length : Int) →
      start < (splitStep text chunkSize overlap start).2 := by
  intro start hlt
  have hfd := Int.fdiv_add_fmod chunkSize 2
  have hfm0 : 0 ≤ chunkSize.fmod 2 := Int.fmod_nonneg' chunkSize (by omega)
  have hfm2 : chunkSize.fmod 2 < 2 := Int.fmod_lt_of_pos chunkSize (by omega)
  simp only [splitStep]
  by_cases hend : start + chunkSize < (text.length : Int)
  · simp only [if_pos hend]
    by_cases hsp : max (pyRFindChar (pySlice text start (start + chunkSize)) '.')
        (pyRFind2 (pySlice text start (start + chunkSize)) '\n' '\n')
        > start + chunkSize.fdiv 2
    · simp only [if_pos hsp]
      omega
    · simp only [if_neg hsp]
      omega
  · simp only [if_neg hend]
    omega

theorem splitAux_total (text : String) {chunkSize overlap : Int}
    (hcs : 1 ≤ chunkSize) (hov : overlap ≤ chunkSize.fdiv 2) :
    ∀ (fuel : Nat) (start : Int) (acc : List String),
      (text.length : Int) - start ≤ (fuel : Int) →
      ∃ r, splitAux text chunkSize overlap fuel start acc = some r := by
  intro fuel
  induction fuel with
  | zero =>
    intro start acc hle
    have : ¬ (start < (text.length : Int)) := by
      simp only [Nat.cast_zero] at hle
      omega
    exact ⟨acc, by simp [splitAux, this]⟩
  | succ fuel ih =>
    intro start acc hle
    by_cases hlt : start < (text.length : Int)
    · have hadv := splitStep_advances text hcs hov start hlt
      have hle' : (text.length : Int)
          - (splitStep text chunkSize overlap start).2 ≤ (fuel : Int) := by
        push_cast at hle ⊢
        omega
      obtain ⟨r, hr⟩ := ih (splitStep text chunkSize overlap start).2
        (if pyStrip (splitStep text chunkSize overlap start).1 ≠ ""
          then acc ++ [pyStrip (splitStep text chunkSize overlap start).1] else acc)
        hle'
      exact ⟨r, by simp only [splitAux, if_pos hlt]; exact hr⟩
    · exact ⟨acc, by simp [splitAux, hlt]⟩

/-- C6 — counterexample: the claim asserts the pointer advance is clamped so
chunking terminates for **every** `chunk_size` and `overlap`. There is no
clamp in the code: with `chunk_size = 2 = overlap` on `"aaaaa"` the first
iteration leaves `start = 0` unchanged (`start = end - overlap`), so the
Python loop never terminates (the fuelled model exhausts its fuel). -/
theorem claim_C6_counterexample :
    (splitStep "aaaaa" 2 2 0).2 = 0 ∧
    splitTextIntoChunks "aaaaa" 2 2 = none := by
  exact ⟨rfl, rfl⟩

/-- C6 (amended): for `overlap ≤ chunk_size // 2` (which holds for the only
parameters the system uses, `1000` and `200`) every iteration of
`_split_text_into_chunks` strictly increases the start pointer, and the
chunker terminates; the code contains no clamp, and parameter combinations
such as `overlap = chunk_size` loop forever. -/
theorem claim_C6_termination (text : String) (chunkSize overlap : Int)
    (hcs : 1 ≤ chunkSize) (hov : overlap ≤ chunkSize.fdiv 2) :
    (∀ start : Int, start < (text.length : Int) →
      start < (splitStep text chunkSize overlap start).2) ∧
    ∃ chunks, splitTextIntoChunks text chunkSize overlap = some chunks := by
  refine ⟨splitStep_advances text hcs hov, ?_⟩
  obtain ⟨r, hr⟩ := splitAux_total text hcs hov (text.length + 1) 0 [] (by push_cast; omega)
  exact ⟨r, hr⟩

/-- C6 — witness: the amended theorem applied to `"aaaaa"`,
`chunk_size = 2`, `overlap = 1`. -/
theorem claim_C6_witness :
    (∀ start : Int, start < (("aaaaa" : String).length : Int) →
      start < (splitStep "aaaaa" 2 1 start).2) ∧
    ∃ chunks, splitTextIntoChunks "aaaaa" 2 1 = some chunks :=
  claim_C6_termination "aaaaa" 2 1 (by decide) (by decide)

/-- C5 — code bug: `chunk.rfind` returns a **chunk-relative** index, which
the code compares with the absolute `start + chunk_size // 2` and reuses as
an absolute slice bound.  On `"abcdef.ghij.klmn"` with `chunk_size = 10`,
`overlap = 5`, the window starting at `2` is `[2,12)` = `"cdef.ghij."`; its
last sentence boundary sits past the window midpoint (relative index `9`,
absolute `11`), so per the claim the emitted chunk should be
`text[2:12] = "cdef.ghij."` — but the code emits `text[2:10] = "cdef.ghi"`,
cutting mid-sentence. -/
theorem claim_C5_theorem :
    splitTextIntoChunks "abcdef.ghij.klmn" 10 5
        = some ["abcdef.", "cdef.ghi", "f.ghij.klm", "j.klmn"] ∧
    (splitStep "abcdef.ghij.klmn" 10 5 2).1 = "cdef.ghi" ∧
    pySlice "abcdef.ghij.klmn" 2 12 = "cdef.ghij." ∧
    (splitStep "abcdef.ghij.klmn" 10 5 2).1
      ≠ pySlice "abcdef.ghij.klmn" 2 12 := by
  refine ⟨by decide, by decide, by decide, by decide⟩

/-! ## Search theorems (claims C2, C8) -/

theorem insertDesc_mem {a r : SearchResult} {l : List SearchResult} :
    a ∈ insertDesc r l ↔ a = r ∨ a ∈ l := by
  induction l with
  | nil => simp [insertDesc]
  | cons x xs ih =>
    by_cases h : x.similarity < r.similarity <;>
      simp [insertDesc, h, ih] <;> tauto

theorem insertDesc_sorted {r : SearchResult} {l : List SearchResult}
    (h : SortedDesc l) : SortedDesc (insertDesc r l) := by
  induction l with
  | nil => simp [insertDesc, SortedDesc]
  | cons x xs ih =>
    rcases List.pairwise_cons.mp h with ⟨hx, hxs⟩
    by_cases hc : x.similarity < r.similarity
    · simp only [insertDesc, if_pos hc]
      refine List.pairwise_cons.mpr ⟨?_, h⟩
      intro b hb
      rcases List.mem_cons.mp hb with hb | hb
      · subst hb; exact le_of_lt hc
      · exact le_trans (hx b hb) (le_of_lt hc)
    · simp only [insertDesc, if_neg hc]
      refine List.pairwise_cons.mpr ⟨?_, ih hxs⟩
      intro b hb
      rcases insertDesc_mem.mp hb with hb | hb
      · subst hb; exact le_of_not_lt hc
      · exact hx b hb

theorem sortBySimDesc_sorted (l : List SearchResult) :
    SortedDesc (sortBySimDesc l) := by
  suffices h : ∀ acc, SortedDesc acc →
      SortedDesc (l.foldl (fun acc r => insertDesc r acc) acc) by
    exact h [] (by simp [SortedDesc])
  induction l with
  | nil => intro acc hacc; exact hacc
  | cons x xs ih =>
    intro acc hacc
    exact ih (insertDesc x acc) (insertDesc_sorted hacc)

theorem mem_sortBySimDesc {a : SearchResult} {l : List SearchResult} :
    a ∈ sortBySimDesc l ↔ a ∈ l := by
  suffices h : ∀ acc, (a ∈ l.foldl (fun acc r => insertDesc r acc) acc
      ↔ a ∈ acc ∨ a ∈ l) by
    simpa using h []
  induction l with
  | nil => intro acc; simp
  | cons x xs ih =>
    intro acc
    rw [List.foldl_cons, ih (insertDesc x acc)]
    simp [insertDesc_mem]
    tauto

theorem pyTake_sublist {α : Type} (limit : Int) (l : List α) :
    (pyTake limit l).Sublist l := by
  unfold pyTake
  split <;> exact List.take_sublist _ _

theorem pyTake_length_le {α : Type} {limit : Int} (hlim : 0 ≤ limit)
    (l : List α) : ((pyTake limit l).length : Int) ≤ limit := by
  unfold pyTake
  rw [if_neg (by omega)]
  have h1 : (l.take limit.toNat).length ≤ limit.toNat := by
    simp [List.length_take]
  omega

/-- Every result collected by the per-document loop passes the similarity
threshold. -/
theorem searchOneDoc_threshold {getColl : String → Except String Unit}
    {collQuery : String → List ℚ → Int → Except String (List ChromaRow)}
    {docId : Int} {qemb : List ℚ} {limit : Int} {threshold : ℚ}
    {r : SearchResult}
    (hr : r ∈ (searchOneDoc getColl collQuery docId qemb limit threshold).1) :
    threshold ≤ r.similarity := by
  unfold searchOneDoc at hr
  rcases hgc : getColl ("document_" ++ toString docId) with e | u
  · simp [hgc] at hr
  · simp only [hgc] at hr
    rcases hq : collQuery ("document_" ++ toString docId) qemb limit with e | rows
    · simp [hq] at hr
    · simp only [hq, List.mem_map, List.mem_filter] at hr
      obtain ⟨row, ⟨_, hpass⟩, hmk⟩ := hr
      rw [← hmk]
      simpa using hpass

theorem collect_threshold {getColl : String → Except String Unit}
    {collQuery : String → List ℚ → Int → Except String (List ChromaRow)}
    {qemb : List ℚ} {limit : Int} {threshold : ℚ}
    (documentIds : List Int) :
    ∀ (acc : List SearchResult × List ProviderCall),
    (∀ r ∈ acc.1, threshold ≤ r.similarity) →
    ∀ r ∈ (documentIds.foldl (fun acc docId =>
        let one := searchOneDoc getColl collQuery docId qemb limit threshold
        (acc.1 ++ one.1, acc.2 ++ one.2)) acc).1,
      threshold ≤ r.similarity := by
  induction documentIds with
  | nil => intro acc hacc r hr; exact hacc r hr
  | cons d ds ih =>
    intro acc hacc r hr
    rw [List.foldl_cons] at hr
    refine ih _ ?_ r hr
    intro x hx
    rcases List.mem_append.mp hx with h | h
    · exact hacc x h
    · exact searchOneDoc_threshold h

/-- C2 — counterexample: the claim quantifies over **every** call, but
`search_documents("q", [], -1, 0.7)` returns a list of length `0`, which is
not `≤ -1`; the slice `results[:limit]` does not bound the length by a
negative `limit`. -/
theorem claim_C2_counterexample :
    ¬ ((((searchDocumentsTr true (fun _ => .ok []) (fun _ => .ok ())
        (fun _ _ _ => .ok []) "q" [] (-1) (7 / 10)).1.length : Int)) ≤ -1) := by
  decide

/-- C2 (amended): for every call with a non-negative `limit`, every returned
result has `similarity ≥ similarity_threshold`, the list's length is at most
`limit`, and the list is sorted by similarity in descending order. (For
negative `limit` the Python slice `results[:limit]` can exceed the bound.) -/
theorem claim_C2_search_contract (client : Bool)
    (rawEmbed : String → Except String (List ℚ))
    (getColl : String → Except String Unit)
    (collQuery : String → List ℚ → Int → Except String (List ChromaRow))
    (query : String) (documentIds : List Int) (limit : Int) (threshold : ℚ)
    (hlim : 0 ≤ limit) :
    (∀ r ∈ (searchDocumentsTr client rawEmbed getColl collQuery query
        documentIds limit threshold).1, threshold ≤ r.similarity) ∧
    (((searchDocumentsTr client rawEmbed getColl collQuery query
        documentIds limit threshold).1.length : Int) ≤ limit) ∧
    SortedDesc (searchDocumentsTr client rawEmbed getColl collQuery query
        documentIds limit threshold).1 := by
  unfold searchDocumentsTr
  by_cases hcl : client
  · simp only [if_pos hcl]
    rcases hq : generateQueryEmbedding rawEmbed query with ⟨qres, calls⟩
    rcases qres with e | qemb
    · refine ⟨by simp, by simpa using hlim, by simp [SortedDesc]⟩
    · simp only
      refine ⟨?_, pyTake_length_le hlim _, ?_⟩
      · intro r hr
        have hr' : r ∈ sortBySimDesc (documentIds.foldl (fun acc docId =>
            let one := searchOneDoc getColl collQuery docId qemb limit threshold
            (acc.1 ++ one.1, acc.2 ++ one.2)) ([], calls)).1 :=
          (pyTake_sublist _ _).mem hr
        have hr'' := mem_sortBySimDesc.mp hr'
        exact collect_threshold documentIds _ (by simp) r hr''
      · exact List.Pairwise.sublist (pyTake_sublist _ _) (sortBySimDesc_sorted _)
  · simp only [if_neg hcl]
    refine ⟨by simp, by simpa using hlim, by simp [SortedDesc]⟩

/-- C2 — witness: a client call with two passing rows, `limit = 5`,
`threshold = 7/10`. -/
theorem claim_C2_witness :
    (0 : Int) ≤ 5 ∧
    ((∀ r ∈ (searchDocumentsTr true (fun _ => .ok [])
        (fun _ => .ok ()) (fun _ _ _ => .ok
          [ChromaRow.mk "c1" (ChromaMeta.mk none none none none) 0,
           ChromaRow.mk "c2" (ChromaMeta.mk none none none none) (1 / 10)])
        "q" [3] 5 (7 / 10)).1, (7 : ℚ) / 10 ≤ r.similarity) ∧
    (((searchDocumentsTr true (fun _ => .ok [])
        (fun _ => .ok ()) (fun _ _ _ => .ok
          [ChromaRow.mk "c1" (ChromaMeta.mk none none none none) 0,
           ChromaRow.mk "c2" (ChromaMeta.mk none none none none) (1 / 10)])
        "q" [3] 5 (7 / 10)).1.length : Int) ≤ 5) ∧
    SortedDesc (searchDocumentsTr true (fun _ => .ok [])
        (fun _ => .ok ()) (fun _ _ _ => .ok
          [ChromaRow.mk "c1" (ChromaMeta.mk none none none none) 0,
           ChromaRow.mk "c2" (ChromaMeta.mk none none none none) (1 / 10)])
        "q" [3] 5 (7 / 10)).1) :=
  ⟨by decide,
   claim_C2_search_contract true (fun _ => .ok []) (fun _ => .ok ())
     (fun _ _ _ => .ok
       [ChromaRow.mk "c1" (ChromaMeta.mk none none none none) 0,
        ChromaRow.mk "c2" (ChromaMeta.mk none none none none) (1 / 10)])
     "q" [3] 5 (7 / 10) (by decide)⟩

/-- C8 — counterexample: `search("q", [], 5, 0.7)` does make a provider
call: the query embedding is generated before the (empty) document loop, so
the call trace is `[embedQuery "q"]`, not empty. -/
theorem claim_C8_counterexample :
    (searchDocumentsTr true (fun _ => .ok []) (fun _ => .ok ())
        (fun _ _ _ => .ok []) "q" [] 5 (7 / 10)).2
      = [ProviderCall.embedQuery "q"] ∧
    [ProviderCall.embedQuery "q"] ≠ ([] : List ProviderCall) := by
  exact ⟨by decide, by decide⟩

/-- C8 (amended): `search_documents(query, [], limit, threshold)` returns
the empty list and raises no error, and makes **no vector-index calls**
(neither `get_collection` nor `collection.query`) — but it does invoke
query-embedding generation once (for queries that clean to a non-empty
string) before discovering the document list is empty. -/
theorem claim_C8_empty_documents
    (rawEmbed : String → Except String (List ℚ))
    (getColl : String → Except String Unit)
    (collQuery : String → List ℚ → Int → Except String (List ChromaRow))
    (query : String) (limit : Int) (threshold : ℚ) :
    (searchDocumentsTr true rawEmbed getColl collQuery query [] limit
        threshold).1 = [] ∧
    (∀ c ∈ (searchDocumentsTr true rawEmbed getColl collQuery query [] limit
        threshold).2, c.isVectorCall = false) ∧
    (cleanText query ≠ "" →
      (searchDocumentsTr true rawEmbed getColl collQuery query [] limit
        threshold).2 = [ProviderCall.embedQuery (cleanText query)]) := by
  unfold searchDocumentsTr generateQueryEmbedding
  by_cases hc : cleanText query = ""
  · simp [hc, pyTake, sortBySimDesc]
  · rcases he : rawEmbed (cleanText query) with e | emb <;>
      simp [hc, he, pyTake, sortBySimDesc, ProviderCall.isVectorCall]

/-- C8 — witness: the amended theorem at `query = "q"` (which cleans to
`"q" ≠ ""`). -/
theorem claim_C8_witness :
    ((searchDocumentsTr true (fun _ => .error "down") (fun _ => .ok ())
        (fun _ _ _ => .ok []) "q" [] 5 (7 / 10)).1 = [] ∧
    (∀ c ∈ (searchDocumentsTr true (fun _ => .error "down") (fun _ => .ok ())
        (fun _ _ _ => .ok []) "q" [] 5 (7 / 10)).2, c.isVectorCall = false) ∧
    (cleanText "q" ≠ "" →
      (searchDocumentsTr true (fun _ => .error "down") (fun _ => .ok ())
        (fun _ _ _ => .ok []) "q" [] 5 (7 / 10)).2
        = [ProviderCall.embedQuery (cleanText "q")])) :=
  claim_C8_empty_documents (fun _ => .error "down") (fun _ => .ok ())
    (fun _ _ _ => .ok []) "q" 5 (7 / 10)

/-! ## Ingestion theorems (claim C10) -/

theorem dOr_assoc {α : Type} (a b c : Option α) :
    dOr (dOr a b) c = dOr a (dOr b c) := by
  cases a <;> cases b <;> simp [dOr]

theorem dictGet_append {α : Type} (l₁ l₂ : List (String × α)) (k : String) :
    dictGet (l₁ ++ l₂) k = dOr (dictGet l₁ k) (dictGet l₂ k) := by
  induction l₁ with
  | nil => simp [dictGet, dOr]
  | cons hd tl ih =>
    by_cases h : hd.1 = k <;> simp [dictGet, h, dOr, ih]

theorem dictGet_dictInsert {α : Type} (d : List (String × α)) (k' k : String)
    (v : α) :
    dictGet (dictInsert d k' v) k = dOr (dictGet [(k', v)] k) (dictGet d k) := by
  by_cases h : k' = k
  · subst h; simp [dictGet_dictInsert_self, dictGet, dOr]
  · rw [dictGet_dictInsert_ne _ _ h]
    simp [dictGet, h, dOr]

/-- Last write wins: looking a key up after a batch of upserts finds the
last value written for it, else falls through to the original dict. -/
theorem dictGet_foldl_insert {α : Type} (P : List (String × α)) :
    ∀ (d : List (String × α)) (k : String),
    dictGet (P.foldl (fun c q => dictInsert c q.1 q.2) d) k
      = dOr (dictGet P.reverse k) (dictGet d k) := by
  induction P with
  | nil => intro d k; simp [dictGet, dOr]
  | cons p t ih =>
    intro d k
    rw [List.foldl_cons, ih, List.reverse_cons, dictGet_append, dOr_assoc,
      dictGet_dictInsert]

theorem dictGet_isSome_iff {α : Type} (d : List (String × α)) (k : String) :
    (dictGet d k).isSome ↔ k ∈ dictKeys d := by
  induction d with
  | nil => simp [dictGet, dictKeys]
  | cons hd tl ih =>
    by_cases h : hd.1 = k <;> simp [dictGet, dictKeys, h, ih] <;> tauto

theorem dictKeys_dictInsert_of_mem {α : Type} {d : List (String × α)}
    {k : String} (v : α) (h : k ∈ dictKeys d) :
    dictKeys (dictInsert d k v) = dictKeys d := by
  induction d with
  | nil => simp [dictKeys] at h
  | cons hd tl ih =>
    by_cases h2 : hd.1 = k
    · simp [dictInsert, dictKeys, h2]
    · simp only [dictKeys, List.map_cons] at h
      rcases List.mem_cons.mp h with h | h
      · exact absurd h.symm h2
      · simp only [dictInsert, if_neg h2, dictKeys, List.map_cons]
        rw [show List.map Prod.fst (dictInsert tl k v)
          = List.map Prod.fst tl from ih h]

theorem mem_dictKeys_dictInsert {α : Type} (d : List (String × α))
    (k k' : String) (v : α) :
    k' ∈ dictKeys (dictInsert d k v) ↔ k' = k ∨ k' ∈ dictKeys d := by
  simp only [dictKeys]
  induction d with
  | nil =>
    simp [dictInsert]
  | cons hd tl ih =>
    by_cases h : hd.1 = k
    · subst h
      simp only [dictInsert, eq_self_iff_true, if_true, List.map_cons,
        List.mem_cons]
      tauto
    · simp only [dictInsert, if_neg h, List.map_cons, List.mem_cons, ih]
      tauto

theorem dictKeys_foldl_insert_of_sub {α : Type} (P : List (String × α)) :
    ∀ (d : List (String × α)), (∀ q ∈ P, q.1 ∈ dictKeys d) →
    dictKeys (P.foldl (fun c q => dictInsert c q.1 q.2) d) = dictKeys d := by
  induction P with
  | nil => intro d _; rfl
  | cons p t ih =>
    intro d hsub
    rw [List.foldl_cons]
    have h1 : dictKeys (dictInsert d p.1 p.2) = dictKeys d :=
      dictKeys_dictInsert_of_mem _ (hsub p (by simp))
    rw [ih _ (fun q hq => by rw [h1]; exact hsub q (by simp [hq])), h1]

theorem mem_dictKeys_foldl_insert_mono {α : Type} (P : List (String × α)) :
    ∀ (d : List (String × α)) (k : String), k ∈ dictKeys d →
    k ∈ dictKeys (P.foldl (fun c q => dictInsert c q.1 q.2) d) := by
  induction P with
  | nil => intro d k hk; exact hk
  | cons p t ih =>
    intro d k hk
    rw [List.foldl_cons]
    exact ih _ k ((mem_dictKeys_dictInsert d p.1 k p.2).mpr (Or.inr hk))

theorem mem_dictKeys_foldl_insert {α : Type} (P : List (String × α)) :
    ∀ (d : List (String × α)) (q : String × α), q ∈ P →
    q.1 ∈ dictKeys (P.foldl (fun c q => dictInsert c q.1 q.2) d) := by
  induction P with
  | nil => intro d q hq; simp at hq
  | cons p t ih =>
    intro d q hq
    rw [List.foldl_cons]
    rcases List.mem_cons.mp hq with h | h
    · subst h
      exact mem_dictKeys_foldl_insert_mono t _ q.1
        ((mem_dictKeys_dictInsert d q.1 q.1 q.2).mpr (Or.inl rfl))
    · exact ih _ q h

theorem dictGet_eq_none_of_not_mem {α : Type} {d : List (String × α)}
    {k : String} (h : k ∉ dictKeys d) : dictGet d k = none := by
  have := (dictGet_isSome_iff d k).not.mpr h
  exact Option.not_isSome_iff_eq_none.mp this

theorem dictGet_mem {α : Type} {d : List (String × α)} {k : String} {v : α}
    (h : dictGet d k = some v) : (k, v) ∈ d := by
  induction d with
  | nil => simp [dictGet] at h
  | cons hd tl ih =>
    by_cases h2 : hd.1 = k
    · subst h2
      simp [dictGet] at h
      simp [← h]
    · simp only [dictGet, if_neg h2] at h
      exact List.mem_cons.mpr (Or.inr (ih h))

theorem dictKeys_nodup_dictInsert {α : Type} {d : List (String × α)}
    (k : String) (v : α) (h : (dictKeys d).Nodup) :
    (dictKeys (dictInsert d k v)).Nodup := by
  by_cases hk : k ∈ dictKeys d
  · rw [dictKeys_dictInsert_of_mem v hk]; exact h
  · rw [dictInsert_of_dictGet_none v (dictGet_eq_none_of_not_mem hk)]
    have heq : dictKeys (d ++ [(k, v)]) = dictKeys d ++ [k] := by
      simp [dictKeys]
    rw [heq, List.nodup_append]
    refine ⟨h, List.nodup_singleton k, ?_⟩
    intro a ha hmem
    rw [List.mem_singleton] at hmem
    exact hk (hmem ▸ ha)

theorem foldl_insert_keys_nodup {α : Type} (P : List (String × α)) :
    ∀ d, (dictKeys d).Nodup →
    (dictKeys (P.foldl (fun c q => dictInsert c q.1 q.2) d)).Nodup := by
  induction P with
  | nil => intro d h; exact h
  | cons p t ih =>
    intro d h
    exact ih _ (dictKeys_nodup_dictInsert p.1 p.2 h)

/-- Two dicts with duplicate-free, identical key sequences and identical
lookups are equal. -/
theorem dict_ext_of_nodup {α : Type} :
    ∀ (c d : List (String × α)), (dictKeys c).Nodup →
    dictKeys c = dictKeys d → (∀ k, dictGet c k = dictGet d k) → c = d := by
  intro c
  induction c with
  | nil =>
    intro d _ hkeys _
    cases d with
    | nil => rfl
    | cons hd tl => simp [dictKeys] at hkeys
  | cons hd tl ih =>
    intro d hnd hkeys hget
    cases d with
    | nil => simp [dictKeys] at hkeys
    | cons hd' tl' =>
      simp only [dictKeys, List.map_cons, List.cons.injEq] at hkeys
      obtain ⟨hk, hkt⟩ := hkeys
      simp only [dictKeys, List.map_cons, List.nodup_cons] at hnd
      have hv := hget hd.1
      simp only [dictGet, if_pos rfl, if_pos hk.symm] at hv
      have hhd : hd = hd' := Prod.ext hk (by injection hv)
      have htl : tl = tl' := by
        apply ih tl' hnd.2 hkt
        intro k
        by_cases hkh : hd.1 = k
        · subst hkh
          rw [dictGet_eq_none_of_not_mem hnd.1,
            dictGet_eq_none_of_not_mem
              (by simp only [dictKeys]; rw [← hkt]; exact hnd.1)]
        · have := hget k
          simp only [dictGet, if_neg hkh, if_neg (hk ▸ hkh)] at this
          exact this
      rw [hhd, htl]

theorem dOr_absorb {α : Type} (a b : Option α) : dOr a (dOr a b) = dOr a b := by
  cases a <;> simp [dOr]

/-- Replaying the same batch of upserts over its own output is a no-op. -/
theorem replay_foldl_insert {α : Type} (P : List (String × α))
    (d : List (String × α)) (hnd : (dictKeys d).Nodup) :
    P.foldl (fun c q => dictInsert c q.1 q.2)
        (P.foldl (fun c q => dictInsert c q.1 q.2) d)
      = P.foldl (fun c q => dictInsert c q.1 q.2) d := by
  apply dict_ext_of_nodup
  · exact foldl_insert_keys_nodup P _ (foldl_insert_keys_nodup P d hnd)
  · exact dictKeys_foldl_insert_of_sub P _
      (fun q hq => mem_dictKeys_foldl_insert P d q hq)
  · intro k
    rw [dictGet_foldl_insert, dictGet_foldl_insert, dOr_absorb]

/-- The batched storage loop is a single sequence of upserts (the sequence
depends only on the chunks, embeddings and ids, not on the collection
contents). -/
theorem storeBatches_eq_foldl (docId : Int) (filename : String)
    (chunks : List String) (embeddings : List (List ℚ)) :
    ∀ i, ∃ P : List (String × IndexEntry), ∀ coll,
      storeBatches docId filename chunks embeddings i coll
        = P.foldl (fun c q => dictInsert c q.1 q.2) coll := by
  suffices h : ∀ (n i : Nat), chunks.length ≤ i + n →
      ∃ P : List (String × IndexEntry), ∀ coll,
        storeBatches docId filename chunks embeddings i coll
          = P.foldl (fun c q => dictInsert c q.1 q.2) coll by
    exact fun i => h chunks.length i (by omega)
  intro n
  induction n with
  | zero =>
    intro i hle
    refine ⟨[], fun coll => ?_⟩
    rw [storeBatches, dif_neg (by omega)]
    simp
  | succ n ih =>
    intro i hle
    by_cases hi : i < chunks.length
    · obtain ⟨P', hP'⟩ := ih (i + 10) (by omega)
      refine ⟨(((chunks.drop i).take 10).zip ((embeddings.drop i).take 10)).enum.map
          (fun p => ("doc_" ++ toString docId ++ "_chunk_" ++ toString (i + p.1),
            IndexEntry.mk p.2.1 p.2.2 (mkChunkMeta docId (i + p.1) filename p.2.1)))
        ++ P', fun coll => ?_⟩
      rw [storeBatches, dif_pos hi, List.foldl_append]
      exact hP' _
    · refine ⟨[], fun coll => ?_⟩
      rw [storeBatches, dif_neg hi]
      simp

/-- C10: re-running `_generate_embeddings` for the same document id and the
same text leaves the vector index unchanged — prior entries for that
document are overwritten in place (the chunk ids `doc_{id}_chunk_{k}` are
recomputed identically, and the index's `upsert` write replaces them), so
ingesting twice equals ingesting once.  (`reprocess_document_embeddings`
additionally deletes the whole collection first, see
`reprocessDocumentEmbeddings`.)  The index is required to be well-formed:
chunk ids are unique within each collection, as both ChromaDB and this
ingestion path guarantee. -/
theorem claim_C10_ingest_idempotent
    (embedFn : List String → Except String (List (List ℚ)))
    (docId : Int) (filename text : String) (idx idx₁ : VectorIndex)
    (hwf : ∀ p ∈ idx, (dictKeys p.2).Nodup)
    (h1 : generateEmbeddings embedFn true docId filename text idx = .ok idx₁) :
    generateEmbeddings embedFn true docId filename text idx₁ = .ok idx₁ := by
  unfold generateEmbeddings at h1 ⊢
  by_cases hs : pyStrip text = ""
  · simp [hs] at h1
  · rcases hchunks : splitTextIntoChunks text 1000 200 with _ | chunks
    · simp [hs, hchunks] at h1
    · rcases hemb : embedFn chunks with e | embeddings
      · simp [hs, hchunks, hemb] at h1
      · simp only [if_neg hs, if_true, hchunks, hemb] at h1 ⊢
        have hidx₁ : idx₁ = dictInsert (getOrCreateCollection idx
            ("document_" ++ toString docId)) ("document_" ++ toString docId)
            (storeBatches docId filename chunks embeddings 0
              ((dictGet (getOrCreateCollection idx ("document_" ++ toString docId))
                ("document_" ++ toString docId)).getD [])) := by
          have := h1
          simp only [Except.ok.injEq] at this
          exact this.symm
        have hga : dictGet idx₁ ("document_" ++ toString docId)
            = some (storeBatches docId filename chunks embeddings 0
              ((dictGet (getOrCreateCollection idx ("document_" ++ toString docId))
                ("document_" ++ toString docId)).getD [])) := by
          rw [hidx₁]
          exact dictGet_dictInsert_self _ _ _
        have hgoc : getOrCreateCollection idx₁ ("document_" ++ toString docId)
            = idx₁ := by
          unfold getOrCreateCollection
          rw [hga]
        have hnodup₀ : (dictKeys ((dictGet (getOrCreateCollection idx
            ("document_" ++ toString docId)) ("document_" ++ toString docId)).getD
              [])).Nodup := by
          rcases hg0 : dictGet (getOrCreateCollection idx
              ("document_" ++ toString docId)) ("document_" ++ toString docId)
            with _ | c
          · simp [dictKeys]
          · have hmem := dictGet_mem hg0
            simp only [Option.getD_some]
            unfold getOrCreateCollection at hmem
            rcases hgi : dictGet idx ("document_" ++ toString docId) with _ | c'
            · rw [hgi] at hmem
              simp only at hmem
              rcases List.mem_append.mp hmem with h | h
              · exact hwf _ h
              · simp at h
                simp [dictKeys, h]
            · rw [hgi] at hmem
              exact hwf _ hmem
        obtain ⟨P, hP⟩ := storeBatches_eq_foldl docId filename chunks embeddings 0
        have hreplay : storeBatches docId filename chunks embeddings 0
            (storeBatches docId filename chunks embeddings 0
              ((dictGet (getOrCreateCollection idx ("document_" ++ toString docId))
                ("document_" ++ toString docId)).getD []))
            = storeBatches docId filename chunks embeddings 0
              ((dictGet (getOrCreateCollection idx ("document_" ++ toString docId))
                ("document_" ++ toString docId)).getD []) := by
          rw [hP, hP]
          exact replay_foldl_insert P _ hnodup₀
        rw [hgoc, hga]
        simp only [Option.getD_some, hreplay]
        rw [dictInsert_of_dictGet_eq hga]

/-- C10 — witness: ingesting `"hello"` as document `7` into an empty index,
twice. -/
theorem claim_C10_witness :
    (∀ p ∈ ([] : VectorIndex), (dictKeys p.2).Nodup) ∧
    generateEmbeddings (fun chunks => .ok (chunks.map (fun _ => [0]))) true 7
        "f.pdf" "hello"
        ((generateEmbeddings (fun chunks => .ok (chunks.map (fun _ => [0])))
            true 7 "f.pdf" "hello" []).toOption.getD [])
      = .ok ((generateEmbeddings (fun chunks => .ok (chunks.map (fun _ => [0])))
            true 7 "f.pdf" "hello" []).toOption.getD []) := by
  constructor
  · simp
  · have h1 : generateEmbeddings (fun chunks => .ok (chunks.map (fun _ => [0])))
        true 7 "f.pdf" "hello" [] = .ok [("document_7",
          [("doc_7_chunk_0", IndexEntry.mk "hello" [0]
            (mkChunkMeta 7 0 "f.pdf" "hello"))])] := by
      unfold generateEmbeddings
      rw [if_neg (by decide), if_pos rfl]
      have hc : splitTextIntoChunks "hello" 1000 200 = some ["hello"] := by decide
      rw [hc]
      simp only [List.map_cons, List.map_nil]
      rw [storeBatches, dif_pos (by decide), storeBatches, dif_neg (by decide)]
      rfl
    rw [show (generateEmbeddings (fun chunks => .ok (chunks.map (fun _ => [0])))
        true 7 "f.pdf" "hello" []).toOption.getD [] = [("document_7",
          [("doc_7_chunk_0", IndexEntry.mk "hello" [0]
            (mkChunkMeta 7 0 "f.pdf" "hello"))])] from by rw [h1]; rfl]
    exact claim_C10_ingest_idempotent _ 7 "f.pdf" "hello" [] _ (by simp)
      (by rw [h1])

/-! ## Execution-order theorems (claims C1, C3, C9) -/

/-- A graph whose edges all increase some rank function is acyclic. -/
theorem acyclic_of_rank {edges : List EdgeT} (rank : String → Nat)
    (h : ∀ e ∈ edges, rank e.source < rank e.target) : Acyclic edges := by
  have hr : ∀ a b, Reaches edges a b → rank a < rank b := by
    intro a b hab
    induction hab with
    | single he =>
      obtain ⟨e, hee, hs, ht⟩ := he
      rw [← hs, ← ht]
      exact h e hee
    | step he _ ih =>
      obtain ⟨e, hee, hs, ht⟩ := he
      calc rank _ = rank e.source := by rw [hs]
        _ < rank e.target := h e hee
        _ = rank _ := by rw [ht]
        _ < rank _ := ih
  intro v hv
  exact lt_irrefl _ (hr v v hv)

/-- C1: for every graph with unique node ids whose edges reference existing
ids and that is acyclic, `_build_execution_order` succeeds, the computed
order is a permutation of the node ids (every node exactly once), and every
edge's source appears strictly before its target. -/
theorem claim_C1_topological_validity (nodes : List NodeT) (edges : List EdgeT)
    (hnd : (nodes.map NodeT.id).Nodup)
    (hval : ∀ e ∈ edges, e.source ∈ nodes.map NodeT.id
      ∧ e.target ∈ nodes.map NodeT.id)
    (hacyc : Acyclic edges) :
    ∃ order, buildExecutionOrder (nodes.map NodeT.id) edges = .ok order ∧
      order.Perm (nodes.map NodeT.id) ∧
      ∀ e ∈ edges, order.indexOf e.source < order.indexOf e.target :=
  buildExecutionOrder_correct hnd hval hacyc

/-- C1 — witness: the chain `a → b`. -/
theorem claim_C1_witness :
    ∃ order, buildExecutionOrder
        (([NodeT.mk "a" "user-query" [], NodeT.mk "b" "output" []]).map NodeT.id)
        [EdgeT.mk "a" "b"] = .ok order ∧
      order.Perm (([NodeT.mk "a" "user-query" [],
        NodeT.mk "b" "output" []]).map NodeT.id) ∧
      ∀ e ∈ [EdgeT.mk "a" "b"],
        order.indexOf e.source < order.indexOf e.target :=
  claim_C1_topological_validity
    [NodeT.mk "a" "user-query" [], NodeT.mk "b" "output" []]
    [EdgeT.mk "a" "b"] (by decide) (by decide)
    (acyclic_of_rank (fun s => if s = "a" then 0 else 1) (by decide))

/-- Helper for C3: under the all-on-a-cycle hypothesis the computed order is
empty. -/
theorem buildExecutionOrder_empty_of_cycles {nodes : List NodeT}
    {edges : List EdgeT}
    (hnd : (nodes.map NodeT.id).Nodup)
    (hval : ∀ e ∈ edges, e.source ∈ nodes.map NodeT.id
      ∧ e.target ∈ nodes.map NodeT.id)
    (hcyc : ∀ n ∈ nodes, OnCycle edges n.id) :
    buildExecutionOrder (nodes.map NodeT.id) edges = .ok [] := by
  have hpe := processEdges_ok hnd hval (fun _ => (0 : Int)) (fun _ => [])
  have hdeg : mapOf (fun k => (0 : Int) + incount edges k) (nodes.map NodeT.id)
      = mapOf (fun k => incount edges k) (nodes.map NodeT.id) :=
    mapOf_congr (fun k _ => by ring)
  have hadj : mapOf (fun k => ([] : List String) ++ outs edges k)
        (nodes.map NodeT.id)
      = mapOf (fun k => outs edges k) (nodes.map NodeT.id) :=
    mapOf_congr (fun k _ => by simp)
  rw [hdeg, hadj] at hpe
  rw [buildExecutionOrder, initDict_eq_mapOf hnd (0 : Int),
    initDict_eq_mapOf hnd ([] : List String), hpe]
  simp only [filter_mapOf_zero]
  have hfilter : (nodes.map NodeT.id).filter
      (fun k => incount edges k == 0) = [] := by
    rw [List.filter_eq_nil_iff]
    intro k hk
    obtain ⟨n, hn, hid⟩ := List.mem_map.mp hk
    obtain ⟨e, he, ht⟩ := Reaches.target_has_incoming (hcyc n hn)
    have hpos := incount_pos_of_mem he
    rw [ht, hid] at hpos
    simp only [beq_iff_eq]
    intro h0
    rw [h0] at hpos
    omega
  rw [hfilter, kahnLoop]

/-- C3: on a well-formed graph all of whose nodes lie on a cycle —
in particular a pure 2-node cycle — the computed order is empty, no node is
ever executed (empty execution log), and the run returns the fixed fallback
response `"No response generated"`. -/
theorem claim_C3_cycle_stall (caps : Caps) (nodes : List NodeT)
    (edges : List EdgeT) (query : String) (documentIds : List Int)
    (hnd : (nodes.map NodeT.id).Nodup)
    (hval : ∀ e ∈ edges, e.source ∈ nodes.map NodeT.id
      ∧ e.target ∈ nodes.map NodeT.id)
    (hcyc : ∀ n ∈ nodes, OnCycle edges n.id) :
    buildExecutionOrder (nodes.map NodeT.id) edges = .ok [] ∧
    executeWorkflow caps nodes edges query documentIds
      = .ok (RunResult.mk (Val.str "No response generated") []
          [("query", Val.str query)]) := by
  have hempty := buildExecutionOrder_empty_of_cycles hnd hval hcyc
  refine ⟨hempty, ?_⟩
  rw [executeWorkflow, hempty]
  simp only [runNodes]
  have : ctxGetD [("query", Val.str query)] "final_response"
      (Val.str "No response generated") = Val.str "No response generated" := by
    simp [ctxGetD, dictGet]
  rw [this]

/-- C3 — witness: the 2-node cycle `a ⇄ b` with no other nodes. -/
theorem claim_C3_witness :
    (buildExecutionOrder (([NodeT.mk "a" "user-query" [],
        NodeT.mk "b" "output" []]).map NodeT.id)
        [EdgeT.mk "a" "b", EdgeT.mk "b" "a"] = .ok []) ∧
    executeWorkflow
        (Caps.mk (fun _ _ _ _ => .error "boom") (fun _ _ => .error "boom")
          false (fun _ => .error "boom") (fun _ => .error "boom")
          (fun _ _ _ => .error "boom") true)
        [NodeT.mk "a" "user-query" [], NodeT.mk "b" "output" []]
        [EdgeT.mk "a" "b", EdgeT.mk "b" "a"] "hi" []
      = .ok (RunResult.mk (Val.str "No response generated") []
          [("query", Val.str "hi")]) := by
  have hab : edgeMem [EdgeT.mk "a" "b", EdgeT.mk "b" "a"] "a" "b" :=
    ⟨EdgeT.mk "a" "b", by simp, rfl, rfl⟩
  have hba : edgeMem [EdgeT.mk "a" "b", EdgeT.mk "b" "a"] "b" "a" :=
    ⟨EdgeT.mk "b" "a", by simp, rfl, rfl⟩
  exact claim_C3_cycle_stall
    (Caps.mk (fun _ _ _ _ => .error "boom") (fun _ _ => .error "boom")
      false (fun _ => .error "boom") (fun _ => .error "boom")
      (fun _ _ _ => .error "boom") true)
    [NodeT.mk "a" "user-query" [], NodeT.mk "b" "output" []]
    [EdgeT.mk "a" "b", EdgeT.mk "b" "a"] "hi" [] (by decide) (by decide)
    (by
      intro n hn
      rcases List.mem_cons.mp hn with h | h
      · rw [h]
        exact Reaches.step hab (Reaches.single hba)
      · simp only [List.mem_singleton] at h
        rw [h]
        exact Reaches.step hba (Reaches.single hab))

theorem isSome_dictGet_dictInsert {α : Type} (d : List (String × α))
    (k k' : String) (v : α) :
    (dictGet (dictInsert d k v) k').isSome ↔ k' = k ∨ (dictGet d k').isSome := by
  rw [dictGet_isSome_iff, dictGet_isSome_iff, mem_dictKeys_dictInsert]

theorem isSome_initDict {α : Type} (ids : List String) (v : α) (k : String) :
    (dictGet (initDict ids v) k).isSome ↔ k ∈ ids := by
  suffices h : ∀ (d : List (String × α)),
      (dictGet (ids.foldl (fun d k => dictInsert d k v) d) k).isSome
        ↔ k ∈ ids ∨ (dictGet d k).isSome by
    simpa [initDict, dictGet] using h []
  induction ids with
  | nil => intro d; simp
  | cons hd tl ih =>
    intro d
    rw [List.foldl_cons, ih, isSome_dictGet_dictInsert]
    simp [List.mem_cons]
    tauto

/-- Any edge referencing a non-existent node id makes the edge loop of
`_build_execution_order` raise a `KeyError`. -/
theorem processEdges_error {ids : List String} :
    ∀ (es : List EdgeT) (deg : List (String × Int))
      (adj : List (String × List String)),
    (∀ k, (dictGet deg k).isSome ↔ k ∈ ids) →
    (∀ k, (dictGet adj k).isSome ↔ k ∈ ids) →
    (∃ e ∈ es, e.source ∉ ids ∨ e.target ∉ ids) →
    ∃ msg, processEdges deg adj es = .error msg := by
  intro es
  induction es with
  | nil =>
    intro _ _ _ _ hbad
    simp at hbad
  | cons e rest ih =>
    intro deg adj hdeg hadj hbad
    by_cases hsrc : e.source ∈ ids
    · have hs : (dictGet adj e.source).isSome := (hadj e.source).mpr hsrc
      obtain ⟨lst, hlst⟩ := Option.isSome_iff_exists.mp hs
      by_cases htgt : e.target ∈ ids
      · have ht : (dictGet deg e.target).isSome := (hdeg e.target).mpr htgt
        obtain ⟨d, hd⟩ := Option.isSome_iff_exists.mp ht
        have hbad' : ∃ e' ∈ rest, e'.source ∉ ids ∨ e'.target ∉ ids := by
          obtain ⟨e', he', hb⟩ := hbad
          rcases List.mem_cons.mp he' with h | h
          · subst h
            rcases hb with hb | hb
            · exact absurd hsrc hb
            · exact absurd htgt hb
          · exact ⟨e', h, hb⟩
        have hdeg' : ∀ k,
            (dictGet (dictInsert deg e.target (d + 1)) k).isSome ↔ k ∈ ids := by
          intro k
          rw [isSome_dictGet_dictInsert, hdeg]
          constructor
          · rintro (h | h)
            · exact h ▸ htgt
            · exact h
          · exact Or.inr
        have hadj' : ∀ k,
            (dictGet (dictInsert adj e.source (lst ++ [e.target])) k).isSome
              ↔ k ∈ ids := by
          intro k
          rw [isSome_dictGet_dictInsert, hadj]
          constructor
          · rintro (h | h)
            · exact h ▸ hsrc
            · exact h
          · exact Or.inr
        obtain ⟨msg, hmsg⟩ := ih (dictInsert deg e.target (d + 1))
          (dictInsert adj e.source (lst ++ [e.target])) hdeg' hadj' hbad'
        exact ⟨msg, by simp only [processEdges, hlst, hd]; exact hmsg⟩
      · have ht : dictGet deg e.target = none := by
          rcases hh : dictGet deg e.target with _ | d
          · rfl
          · exact absurd ((hdeg e.target).mp (by simp [hh])) htgt
        exact ⟨"KeyError: " ++ e.target, by
          simp only [processEdges, hlst, ht]⟩
    · have hs : dictGet adj e.source = none := by
        rcases hh : dictGet adj e.source with _ | lst
        · rfl
        · exact absurd ((hadj e.source).mp (by simp [hh])) hsrc
      exact ⟨"KeyError: " ++ e.source, by simp only [processEdges, hs]⟩

/-- C9 — counterexample: the graph with the single node `a` and the dangling
edge `a → b` makes `execute_workflow` fail with a `KeyError` (raised by
`in_degree[target] += 1` in `_build_execution_order`) instead of completing. -/
theorem claim_C9_counterexample :
    executeWorkflow
        (Caps.mk (fun _ _ _ _ => .error "boom") (fun _ _ => .error "boom")
          false (fun _ => .error "boom") (fun _ => .error "boom")
          (fun _ _ _ => .error "boom") true)
        [NodeT.mk "a" "user-query" []] [EdgeT.mk "a" "b"] "hi" []
      = .error "KeyError: b" ∧
    ∀ r, executeWorkflow
        (Caps.mk (fun _ _ _ _ => .error "boom") (fun _ _ => .error "boom")
          false (fun _ => .error "boom") (fun _ => .error "boom")
          (fun _ _ _ => .error "boom") true)
        [NodeT.mk "a" "user-query" []] [EdgeT.mk "a" "b"] "hi" []
      ≠ .ok r := by
  constructor
  · rfl
  · intro r h
    rw [show executeWorkflow
        (Caps.mk (fun _ _ _ _ => .error "boom") (fun _ _ => .error "boom")
          false (fun _ => .error "boom") (fun _ => .error "boom")
          (fun _ _ _ => .error "boom") true)
        [NodeT.mk "a" "user-query" []] [EdgeT.mk "a" "b"] "hi" []
      = .error "KeyError: b" from rfl] at h
    exact Except.noConfusion h

/-- C9 (amended): the dispatch loop of `execute_workflow` does skip ordered
ids with no matching node, but an edge referencing a missing node id is not
tolerated: `_build_execution_order` raises a `KeyError` while building the
in-degree/adjacency dicts, so the whole `execute_workflow` call fails for
such graphs. -/
theorem claim_C9_dangling_edges (nodes : List NodeT) (edges : List EdgeT)
    (hbad : ∃ e ∈ edges, e.source ∉ nodes.map NodeT.id
      ∨ e.target ∉ nodes.map NodeT.id) :
    ∃ msg, buildExecutionOrder (nodes.map NodeT.id) edges = .error msg ∧
      ∀ (caps : Caps) (query : String) (documentIds : List Int),
        executeWorkflow caps nodes edges query documentIds = .error msg := by
  obtain ⟨msg, hmsg⟩ := processEdges_error edges
    (initDict (nodes.map NodeT.id) 0) (initDict (nodes.map NodeT.id) [])
    (fun k => isSome_initDict _ _ k) (fun k => isSome_initDict _ _ k) hbad
  refine ⟨msg, ?_, ?_⟩
  · rw [buildExecutionOrder, hmsg]
  · intro caps query documentIds
    rw [executeWorkflow, buildExecutionOrder, hmsg]

/-- C9 — witness: the amended theorem at the single-node graph with the
dangling edge `a → b`. -/
theorem claim_C9_witness :
    ∃ msg, buildExecutionOrder
        (([NodeT.mk "a" "user-query" []]).map NodeT.id) [EdgeT.mk "a" "b"]
        = .error msg ∧
      ∀ (caps : Caps) (query : String) (documentIds : List Int),
        executeWorkflow caps [NodeT.mk "a" "user-query" []] [EdgeT.mk "a" "b"]
          query documentIds = .error msg :=
  claim_C9_dangling_edges [NodeT.mk "a" "user-query" []] [EdgeT.mk "a" "b"]
    (by decide)

/-! ## Output-node theorem (claim C7) -/

/-- C7 — the execution-time line is dead code: with
`show_execution_time: true` on the output node, a full run of the workflow
`user-query → output` returns `"hi"` with **no** execution-time line.  The
handler only appends the line when `context["execution_time"]` is truthy,
and `execute_workflow` never writes `execution_time` into the context (it
is only a field of the returned payload), so the configured feature can
never fire. -/
theorem claim_C7_theorem :
    cfgTruthy [("show_execution_time", CVal.b true)] "show_execution_time"
      false = true ∧
    executeWorkflow
        (Caps.mk (fun _ _ _ _ => .error "boom") (fun _ _ => .error "boom")
          false (fun _ => .error "boom") (fun _ => .error "boom")
          (fun _ _ _ => .error "boom") true)
        [NodeT.mk "q1" "user-query" [],
         NodeT.mk "o1" "output" [("show_execution_time", CVal.b true)]]
        [EdgeT.mk "q1" "o1"] "hi" []
      = .ok (RunResult.mk (Val.str "hi")
          [ExecutionStep.mk "user-query" "q1"
            [("user_query", Val.str "hi"), ("component_output", Val.str "hi")],
           ExecutionStep.mk "output" "o1"
            [("final_response", Val.str "hi"), ("format", Val.str "markdown"),
             ("component_output", Val.str "hi")]]
          [("query", Val.str "hi"), ("user_query", Val.str "hi"),
           ("component_output", Val.str "hi"), ("final_response", Val.str "hi"),
           ("format", Val.str "markdown")]) := by
  constructor
  · rfl
  · have horder : buildExecutionOrder
        (List.map NodeT.id [NodeT.mk "q1" "user-query" [],
          NodeT.mk "o1" "output" [("show_execution_time", CVal.b true)]])
        [EdgeT.mk "q1" "o1"] = .ok ["q1", "o1"] := by
      simp [buildExecutionOrder, initDict, dictInsert, processEdges, dictGet,
        kahnLoop, processNeighbors, degPos, List.filter]
    rw [executeWorkflow, horder]
    rfl

/-! ## Error-containment theorems (claim C4) -/

theorem optionMapAll_isSome_of {α β : Type} (f : α → Option β) :
    ∀ (l : List α) (res : List β), optionMapAll f l = some res →
    ∀ a ∈ l, (f a).isSome := by
  intro l
  induction l with
  | nil => intro res _ a ha; simp at ha
  | cons x xs ih =>
    intro res hres a ha
    simp only [optionMapAll] at hres
    rcases hfx : f x with _ | b
    · rw [hfx] at hres; simp at hres
    · rw [hfx] at hres
      rcases hrest : optionMapAll f xs with _ | bs
      · rw [hrest] at hres; simp at hres
      · rcases List.mem_cons.mp ha with h | h
        · subst h; simp [hfx]
        · exact ih bs hrest a h

theorem optionMapAll_some_of {α β : Type} (f : α → Option β) :
    ∀ l : List α, (∀ a ∈ l, (f a).isSome) →
    ∃ res, optionMapAll f l = some res := by
  intro l
  induction l with
  | nil => intro _; exact ⟨[], rfl⟩
  | cons x xs ih =>
    intro h
    obtain ⟨b, hb⟩ := Option.isSome_iff_exists.mp (h x (by simp))
    obtain ⟨bs, hbs⟩ := ih (fun a ha => h a (by simp [ha]))
    exact ⟨b :: bs, by simp only [optionMapAll, hb, hbs]⟩

theorem dictGet_dictUpdate (ctx upd : Ctx) (k : String) :
    dictGet (dictUpdate ctx upd) k = dOr (dictGet upd.reverse k) (dictGet ctx k) :=
  dictGet_foldl_insert upd ctx k

theorem CtxInv_update {ctx upd : Ctx} (h : CtxInv ctx)
    (h1 : ∀ v, dictGet upd.reverse "knowledge_base_results" = some v →
      ∃ rs, v = Val.results rs ∧ ∀ r ∈ rs, r.metadata.filename.isSome)
    (h2 : dictGet upd.reverse "execution_time" = none)
    (h3 : ∀ v, dictGet upd.reverse "final_response" = some v →
      ∃ s, v = Val.str s) :
    CtxInv (dictUpdate ctx upd) := by
  refine ⟨?_, ?_, ?_⟩
  · intro v hv
    rw [dictGet_dictUpdate] at hv
    rcases hu : dictGet upd.reverse "knowledge_base_results" with _ | w
    · rw [hu] at hv
      exact h.1 v hv
    · rw [hu] at hv
      simp only [dOr] at hv
      exact h1 v (hv ▸ hu)
  · rw [dictGet_dictUpdate, h2, h.2.1]
    rfl
  · intro v hv
    rw [dictGet_dictUpdate] at hv
    rcases hu : dictGet upd.reverse "final_response" with _ | w
    · rw [hu] at hv
      exact h.2.2 v hv
    · rw [hu] at hv
      simp only [dOr] at hv
      exact h3 v (hv ▸ hu)

theorem CtxInv_update_userQuery {ctx : Ctx} (h : CtxInv ctx) :
    CtxInv (dictUpdate ctx (executeUserQuery ctx)) := by
  refine CtxInv_update h ?_ ?_ ?_ <;> simp [executeUserQuery, dictGet]

theorem buildContextText_filenames {rs : List SearchResult} {t : String}
    (h : buildContextText rs = some t) :
    ∀ r ∈ rs, r.metadata.filename.isSome := by
  unfold buildContextText at h
  rcases hm : optionMapAll (fun (r : SearchResult) => r.metadata.filename.map
      (fun fn => "Source: " ++ fn ++ "\nContent: " ++ r.content)) rs with _ | parts
  · rw [hm] at h; simp at h
  · intro r hr
    have := optionMapAll_isSome_of _ rs parts hm r hr
    rcases hf : r.metadata.filename with _ | fn
    · rw [hf] at this; simp at this
    · simp

theorem CtxInv_update_knowledgeBase {caps : Caps} {config : Config} {ctx : Ctx}
    {documentIds : List Int} (h : CtxInv ctx) :
    CtxInv (dictUpdate ctx (executeKnowledgeBase caps config ctx documentIds)) := by
  unfold executeKnowledgeBase
  by_cases hd : documentIds = []
  · rw [if_pos hd]
    refine CtxInv_update h ?_ ?_ ?_
    · intro v hv
      simp [dictGet] at hv
      exact ⟨[], hv.symm, by simp⟩
    · simp [dictGet]
    · intro v hv
      simp [dictGet] at hv
  · rw [if_neg hd]
    rcases hb : buildContextText (searchDocuments caps (ctxGetStr ctx "query" "")
        documentIds (cfgInt config "search_limit" 5)
        (cfgQ config "similarity_threshold" (7 / 10))) with _ | t
    · simp only [hb]
      refine CtxInv_update h ?_ ?_ ?_
      · intro v hv
        simp [dictGet] at hv
        exact ⟨[], hv.symm, by simp⟩
      · simp [dictGet]
      · intro v hv
        simp [dictGet] at hv
    · simp only [hb]
      refine CtxInv_update h ?_ ?_ ?_
      · intro v hv
        simp [dictGet] at hv
        exact ⟨_, hv.symm, buildContextText_filenames hb⟩
      · simp [dictGet]
      · intro v hv
        simp [dictGet] at hv

theorem CtxInv_update_llmEngine {caps : Caps} {config : Config} {ctx : Ctx}
    (h : CtxInv ctx) :
    CtxInv (dictUpdate ctx (executeLlmEngine caps config ctx)) := by
  unfold executeLlmEngine
  rcases hr : (if cfgTruthy config "enable_web_search" false then
      generateResponseWithWebSearch caps (ctxGetStr ctx "query" "")
        (ctxGetStr ctx "context_text" "") (cfgStr config "model" "gemini-1.5-flash")
        (cfgQ config "temperature" (7 / 10)) (cfgInt config "max_tokens" 1000)
        (cfgStr config "custom_prompt" "") (cfgInt config "web_search_queries" 3)
    else
      generateResponse caps (ctxGetStr ctx "query" "")
        (ctxGetStr ctx "context_text" "") (cfgStr config "model" "gemini-1.5-flash")
        (cfgQ config "temperature" (7 / 10)) (cfgInt config "max_tokens" 1000)
        (cfgStr config "custom_prompt" "")) with e | r <;>
    simp only [hr] <;>
    refine CtxInv_update h ?_ ?_ ?_ <;>
    simp [dictGet]

/-- Whenever every knowledge-base result carries a filename, the sources
block cannot raise `KeyError`. -/
theorem appendSourcesBlock_ok {ctx : Ctx} {b : Bool} {fm : String}
    (h1 : ∀ v, dictGet ctx "knowledge_base_results" = some v →
      ∃ rs, v = Val.results rs ∧ ∀ r ∈ rs, r.metadata.filename.isSome) :
    ∃ f1, appendSourcesBlock ctx b fm = .ok f1 := by
  unfold appendSourcesBlock
  by_cases hcond : b ∧ (ctxGetD ctx "knowledge_base_results" (Val.results [])).truthy
  · rw [if_pos hcond]
    rcases hkb : dictGet ctx "knowledge_base_results" with _ | v
    · exfalso
      have := hcond.2
      rw [ctxGetD, hkb] at this
      simp [Val.truthy] at this
    · obtain ⟨rs, hv, hfn⟩ := h1 v hkb
      subst hv
      obtain ⟨sources, hsources⟩ := optionMapAll_some_of
        (fun (r : SearchResult) => r.metadata.filename.map (fun fn =>
          "- " ++ fn ++ " (similarity: " ++ fmt2 r.similarity ++ ")")) rs
        (fun r hr => by simpa using hfn r hr)
      simp only [hkb, hsources]
      by_cases hne : sources = []
      · subst hne
        simp
      · simp [hne]
  · rw [if_neg hcond]
    exact ⟨_, rfl⟩

/-- As long as `execution_time` is absent from the context — which
`execute_workflow` guarantees — the execution-time line is a no-op. -/
theorem appendExecutionTime_ok {ctx : Ctx} {b : Bool} {f1 : String}
    (h2 : dictGet ctx "execution_time" = none) :
    appendExecutionTime ctx b f1 = .ok f1 := by
  unfold appendExecutionTime
  rw [if_neg]
  rintro ⟨_, htr⟩
  rw [ctxGetD, h2] at htr
  simp [Val.truthy] at htr

/-- On a context satisfying the invariant, the output handler cannot raise:
it returns the three string entries. -/
theorem executeOutput_ok {config : Config} {ctx : Ctx} (h : CtxInv ctx) :
    ∃ s fmt, executeOutput config ctx
      = .ok [("final_response", Val.str s), ("format", Val.str fmt),
             ("component_output", Val.str s)] := by
  obtain ⟨f1, hf1⟩ := @appendSourcesBlock_ok ctx
    (cfgTruthy config "show_sources" true) (llmOrComponentOutput ctx).asStr h.1
  refine ⟨f1, cfgStr config "format" "markdown", ?_⟩
  simp only [executeOutput, hf1,
    @appendExecutionTime_ok ctx (cfgTruthy config "show_execution_time" false)
      f1 h.2.1]

/-- The dispatch loop terminates successfully on graphs whose node types are
known, preserving the context invariant; its log records exactly the
ordered ids that match a node. -/
theorem runNodes_ok (caps : Caps) (nodes : List NodeT) (documentIds : List Int)
    (hknown : ∀ n ∈ nodes, n.type ∈
      (["user-query", "knowledge-base", "llm-engine", "output"] : List String)) :
    ∀ (order : List String) (ctx : Ctx) (log : List ExecutionStep),
    CtxInv ctx →
    ∃ ctx' log', runNodes caps nodes documentIds order ctx log = .ok (ctx', log') ∧
      CtxInv ctx' ∧
      log'.map ExecutionStep.node_id = log.map ExecutionStep.node_id
        ++ order.filter (fun i => (nodes.find? (fun n => n.id = i)).isSome) := by
  intro order
  induction order with
  | nil =>
    intro ctx log hinv
    exact ⟨ctx, log, rfl, hinv, by simp⟩
  | cons nodeId rest ih =>
    intro ctx log hinv
    rcases hfind : nodes.find? (fun n => n.id = nodeId) with _ | node
    · obtain ⟨ctx', log', hrun, hinv', hlog⟩ := ih ctx log hinv
      refine ⟨ctx', log', ?_, hinv', ?_⟩
      · simp only [runNodes, hfind]
        exact hrun
      · rw [hlog, List.filter_cons]
        simp [hfind]
    · have hmem : node ∈ nodes := List.mem_of_find?_eq_some hfind
      have htype := hknown node hmem
      have hstep : ∀ upd, executeComponent caps node.type node.config ctx
            documentIds = .ok upd → CtxInv (dictUpdate ctx upd) →
          ∃ ctx' log', runNodes caps nodes documentIds (nodeId :: rest) ctx log
              = .ok (ctx', log') ∧ CtxInv ctx' ∧
            log'.map ExecutionStep.node_id = log.map ExecutionStep.node_id
              ++ (nodeId :: rest).filter
                (fun i => (nodes.find? (fun n => n.id = i)).isSome) := by
        intro upd hupd hinv'
        obtain ⟨ctx', log', hrun, hinv'', hlog⟩ :=
          ih (dictUpdate ctx upd)
            (log ++ [ExecutionStep.mk node.type nodeId upd]) hinv'
        refine ⟨ctx', log', ?_, hinv'', ?_⟩
        · simp only [runNodes, hfind, hupd]
          exact hrun
        · rw [hlog, List.filter_cons]
          simp [hfind]
      simp only [List.mem_cons, List.not_mem_nil, or_false] at htype
      rcases htype with ht | ht | ht | ht
      · exact hstep _ (by simp [executeComponent, ht])
          (CtxInv_update_userQuery hinv)
      · refine hstep (executeKnowledgeBase caps node.config ctx documentIds) ?_
          (CtxInv_update_knowledgeBase hinv)
        rw [executeComponent, ht]
        rfl
      · refine hstep (executeLlmEngine caps node.config ctx) ?_
          (CtxInv_update_llmEngine hinv)
        rw [executeComponent, ht]
        rfl
      · obtain ⟨s, fmt, hout⟩ := @executeOutput_ok node.config ctx hinv
        refine hstep [("final_response", Val.str s), ("format", Val.str fmt),
          ("component_output", Val.str s)] ?_ ?_
        · rw [executeComponent, ht]
          simp only [if_neg (by decide : ¬("output" : String) = "user-query"),
            if_neg (by decide : ¬("output" : String) = "knowledge-base"),
            if_neg (by decide : ¬("output" : String) = "llm-engine"),
            if_pos rfl]
          exact hout
        · refine CtxInv_update hinv ?_ ?_ ?_ <;> simp [dictGet]

/-- A generation-provider failure surfaces in the llm-engine handler's
context entries as human-readable error strings. -/
theorem executeLlmEngine_error {caps : Caps} {config : Config} {ctx : Ctx}
    {e : String} (hgen : ∀ p m t k, caps.rawGen p m t k = .error e)
    (hweb : cfgTruthy config "enable_web_search" false = false) :
    executeLlmEngine caps config ctx =
      [("llm_response", Val.str
          ("Error generating response: "
            ++ ("Error generating Gemini response: " ++ e))),
       ("llm_model", Val.str (cfgStr config "model" "gemini-1.5-flash")),
       ("llm_usage", Val.usage []),
       ("web_results", Val.webs []),
       ("component_output", Val.str
          ("Error: " ++ ("Error generating Gemini response: " ++ e)))] := by
  have hgemini : ∀ p c m t k, generateResponseGemini caps p c m t k
      = .error ("Error generating Gemini response: " ++ e) := by
    intro p c m t k
    simp only [generateResponseGemini, hgen]
  have hresp : ∀ p c m t k cp, generateResponse caps p c m t k cp
      = .error ("Error generating Gemini response: " ++ e) := by
    intro p c m t k cp
    simp only [generateResponse]
    split <;> exact hgemini _ _ _ _ _
  simp only [executeLlmEngine, hweb, Bool.false_eq_true, if_false, hresp]

/-- An embedding-provider failure never reaches the knowledge-base handler's
`except` branch: `search_documents` absorbs it internally and returns `[]`,
so the handler stores empty results and empty strings — no error message. -/
theorem executeKnowledgeBase_error_swallowed {caps : Caps} {config : Config}
    {ctx : Ctx} {documentIds : List Int} {e : String}
    (hembed : ∀ q, caps.rawEmbedQuery q = .error e)
    (hne : documentIds ≠ []) :
    executeKnowledgeBase caps config ctx documentIds =
      [("knowledge_base_results", Val.results []),
       ("context_text", Val.str ""),
       ("component_output", Val.str "")] := by
  have hsearch : searchDocuments caps (ctxGetStr ctx "query" "") documentIds
      (cfgInt config "search_limit" 5)
      (cfgQ config "similarity_threshold" (7 / 10)) = [] := by
    unfold searchDocuments searchDocumentsTr
    by_cases hc : caps.chromaAvailable
    · rw [if_pos hc]
      unfold generateQueryEmbedding
      by_cases hclean : cleanText (ctxGetStr ctx "query" "") = ""
      · simp [hclean]
      · simp [hclean, hembed]
    · rw [if_neg hc]
  unfold executeKnowledgeBase
  rw [if_neg hne]
  simp only [hsearch]
  rfl

/-- Any workflow whose order computation succeeds and whose nodes carry the
four known type tags runs to completion: the handlers never propagate, the
log visits exactly the ordered ids matching a node, and the caller receives
a string response. -/
theorem executeWorkflow_completes (caps : Caps) (nodes : List NodeT)
    (edges : List EdgeT) (query : String) (documentIds : List Int)
    (order : List String)
    (horder : buildExecutionOrder (nodes.map NodeT.id) edges = .ok order)
    (hknown : ∀ n ∈ nodes, n.type ∈
      (["user-query", "knowledge-base", "llm-engine", "output"] : List String)) :
    ∃ r, executeWorkflow caps nodes edges query documentIds = .ok r ∧
      (∃ s, r.response = Val.str s) ∧
      r.execution_log.map ExecutionStep.node_id
        = order.filter (fun i => (nodes.find? (fun n => n.id = i)).isSome) := by
  have hinv0 : CtxInv [("query", Val.str query)] := by
    refine ⟨?_, ?_, ?_⟩ <;> simp [dictGet]
  obtain ⟨ctx', log', hrun, hinv', hlog⟩ :=
    runNodes_ok caps nodes documentIds hknown order [("query", Val.str query)] []
      hinv0
  refine ⟨RunResult.mk (ctxGetD ctx' "final_response"
      (Val.str "No response generated")) log' ctx', ?_, ?_, ?_⟩
  · simp only [executeWorkflow, horder, hrun]
  · rcases hfr : dictGet ctx' "final_response" with _ | v
    · exact ⟨"No response generated", by simp [ctxGetD, hfr]⟩
    · obtain ⟨s, hs⟩ := hinv'.2.2 v hfr
      exact ⟨s, by simp [ctxGetD, hfr, hs]⟩
  · simpa using hlog

/-- C4 — counterexample to the knowledge-base half of the claim: with every
external provider failing, the knowledge-base handler's partial context is
exactly empty results and empty strings.  Every string it carries is `""`:
no entry holds a human-readable error string describing the failure. -/
theorem claim_C4_counterexample :
    executeKnowledgeBase
        (Caps.mk (fun _ _ _ _ => .error "boom") (fun _ _ => .error "boom")
          false (fun _ => .error "boom") (fun _ => .error "boom")
          (fun _ _ _ => .error "boom") true)
        [] [("query", Val.str "hi")] [1]
      = [("knowledge_base_results", Val.results []),
         ("context_text", Val.str ""),
         ("component_output", Val.str "")] ∧
    ∀ k v, dictGet
        (executeKnowledgeBase
          (Caps.mk (fun _ _ _ _ => .error "boom") (fun _ _ => .error "boom")
            false (fun _ => .error "boom") (fun _ => .error "boom")
            (fun _ _ _ => .error "boom") true)
          [] [("query", Val.str "hi")] [1]) k = some v →
      ∀ s, v = Val.str s → s = "" := by
  constructor
  · rfl
  · intro k v hv s hs
    rw [show executeKnowledgeBase
        (Caps.mk (fun _ _ _ _ => .error "boom") (fun _ _ => .error "boom")
          false (fun _ => .error "boom") (fun _ => .error "boom")
          (fun _ _ _ => .error "boom") true)
        [] [("query", Val.str "hi")] [1]
      = [("knowledge_base_results", Val.results []),
         ("context_text", Val.str ""),
         ("component_output", Val.str "")] from rfl] at hv
    subst hs
    simp only [dictGet] at hv
    by_cases h1 : ("knowledge_base_results" : String) = k
    · simp [h1] at hv
    · simp only [h1, if_false, beq_iff_eq] at hv
      by_cases h2 : ("context_text" : String) = k
      · simp [h2] at hv
        exact hv.symm
      · simp only [h2, if_false, beq_iff_eq] at hv
        by_cases h3 : ("component_output" : String) = k
        · simp [h3] at hv
          exact hv.symm
        · simp [h3] at hv

/-- C4 (amended): error containment is asymmetric, and the run always
completes.  When the raw generation provider fails with message `e` (web
search disabled), the llm-engine handler stores the human-readable strings
`"Error generating response: Error generating Gemini response: e"` /
`"Error: …"` in its partial context.  When the embedding provider fails, the
knowledge-base handler stores **no** error string at all: `search_documents`
absorbs the failure internally and the handler writes empty results and
empty strings.  In both cases nothing propagates: every workflow over the
four known node types whose order computation succeeds runs to completion
with a string response, its log visiting exactly the ordered ids that match
a node. -/
theorem claim_C4_error_containment (caps : Caps) (config : Config) (ctx : Ctx)
    (e : String) (documentIds : List Int)
    (hgen : ∀ p m t k, caps.rawGen p m t k = .error e)
    (hweb : cfgTruthy config "enable_web_search" false = false)
    (hembed : ∀ q, caps.rawEmbedQuery q = .error e)
    (hne : documentIds ≠ []) :
    executeLlmEngine caps config ctx =
      [("llm_response", Val.str
          ("Error generating response: "
            ++ ("Error generating Gemini response: " ++ e))),
       ("llm_model", Val.str (cfgStr config "model" "gemini-1.5-flash")),
       ("llm_usage", Val.usage []),
       ("web_results", Val.webs []),
       ("component_output", Val.str
          ("Error: " ++ ("Error generating Gemini response: " ++ e)))] ∧
    executeKnowledgeBase caps config ctx documentIds =
      [("knowledge_base_results", Val.results []),
       ("context_text", Val.str ""),
       ("component_output", Val.str "")] ∧
    ∀ (nodes : List NodeT) (edges : List EdgeT) (query : String)
      (order : List String),
      buildExecutionOrder (nodes.map NodeT.id) edges = .ok order →
      (∀ n ∈ nodes, n.type ∈
        (["user-query", "knowledge-base", "llm-engine", "output"] : List String)) →
      ∃ r, executeWorkflow caps nodes edges query documentIds = .ok r ∧
        (∃ s, r.response = Val.str s) ∧
        r.execution_log.map ExecutionStep.node_id
          = order.filter (fun i => (nodes.find? (fun n => n.id = i)).isSome) :=
  ⟨executeLlmEngine_error hgen hweb,
   executeKnowledgeBase_error_swallowed hembed hne,
   fun nodes edges query order horder hknown =>
     executeWorkflow_completes caps nodes edges query documentIds order horder
       hknown⟩

/-- C4 — witness: the amended theorem at an all-failing provider, the empty
config, the initial context and one linked document. -/
theorem claim_C4_witness :
    executeLlmEngine
        (Caps.mk (fun _ _ _ _ => .error "boom") (fun _ _ => .error "boom")
          false (fun _ => .error "boom") (fun _ => .error "boom")
          (fun _ _ _ => .error "boom") true)
        [] [("query", Val.str "hi")] =
      [("llm_response", Val.str
          ("Error generating response: Error generating Gemini response: "
            ++ "boom")),
       ("llm_model", Val.str (cfgStr [] "model" "gemini-1.5-flash")),
       ("llm_usage", Val.usage []),
       ("web_results", Val.webs []),
       ("component_output", Val.str
          ("Error: Error generating Gemini response: " ++ "boom"))] ∧
    executeKnowledgeBase
        (Caps.mk (fun _ _ _ _ => .error "boom") (fun _ _ => .error "boom")
          false (fun _ => .error "boom") (fun _ => .error "boom")
          (fun _ _ _ => .error "boom") true)
        [] [("query", Val.str "hi")] [1] =
      [("knowledge_base_results", Val.results []),
       ("context_text", Val.str ""),
       ("component_output", Val.str "")] ∧
    ∀ (nodes : List NodeT) (edges : List EdgeT) (query : String)
      (order : List String),
      buildExecutionOrder (nodes.map NodeT.id) edges = .ok order →
      (∀ n ∈ nodes, n.type ∈
        (["user-query", "knowledge-base", "llm-engine", "output"] : List String)) →
      ∃ r, executeWorkflow
          (Caps.mk (fun _ _ _ _ => .error "boom") (fun _ _ => .error "boom")
            false (fun _ => .error "boom") (fun _ => .error "boom")
            (fun _ _ _ => .error "boom") true)
          nodes edges query [1] = .ok r ∧
        (∃ s, r.response = Val.str s) ∧
        r.execution_log.map ExecutionStep.node_id
          = order.filter (fun i => (nodes.find? (fun n => n.id = i)).isSome) :=
  claim_C4_error_containment
    (Caps.mk (fun _ _ _ _ => .error "boom") (fun _ _ => .error "boom")
      false (fun _ => .error "boom") (fun _ => .error "boom")
      (fun _ _ _ => .error "boom") true)
    [] [("query", Val.str "hi")] "boom" [1]
    (fun _ _ _ _ => rfl) rfl (fun _ => rfl) (by decide)

end AgentBuilder
